import Mathlib

/-!
# In-memory hierarchical filesystem (`filesystem.cpp`)

A shallow embedding of the node classes (`FileAttribute`, `FileNode`, `File`,
`Directory`), of the path-addressed operations `Directory::addFile`,
`Directory::deleteFile`, `Directory::get`, `Directory::getSize` and of the
`FileSystem` facade, followed by theorems about them.

Modelling conventions:

* `std::string` / `std::string_view` are lists of characters (`Str`);
* `std::unordered_map<std::string, std::unique_ptr<FileNode>>` is an association
  list; `find`, `operator[]`-assignment and `erase` act on the first entry with
  the given key, and a real map never holds two entries with one key
  (`FileNode.uniqueKeys`);
* `size_t` is `Nat` with an explicit `% 2 ^ 64` where the source adds;
* `std::chrono::steady_clock` is a counter threaded through the operations:
  a reading returns the counter and advances it by one;
* undefined behaviour of the source (a `static_cast<Directory*>` applied to a
  `File`, a read past the end of the input buffer) is an explicit `Fault`;
* the recursion over the path is driven by a fuel argument which the public
  entry points set to `file_path.length + 1`.
-/

namespace Filesystem

/-- Strings of the source (`std::string`, `std::string_view`, `const char*` buffers). -/
abbrev Str := List Char

/-- The value `2 ^ 64`: `size_t` arithmetic is modulo this number. -/
def SIZE_MOD : Nat := 2 ^ 64

/-- Attributes shared by all nodes (`struct FileAttribute`). -/
structure FileAttribute where
  _file_name : Str
  _creation_time : Nat
  _last_modified_time : Nat
deriving DecidableEq, Repr

/-- A default-constructed `FileAttribute`: empty name, both time points at the epoch. -/
def FileAttribute.default : FileAttribute := ⟨[], 0, 0⟩

/-- Data members of `class File` (its `FileNode` base included). -/
structure File where
  _file_attribute : FileAttribute
  _file_contents : Str
  _size : Nat
deriving DecidableEq, Repr

/-- A node of the tree: the two subclasses of `class FileNode`.  A directory carries its
attributes and its `_files` map. -/
inductive FileNode where
  | file (f : File)
  | directory (_file_attribute : FileAttribute) (_files : List (Str × FileNode))
deriving Repr

/-- The type of the `_files` member. -/
abbrev FileMap := List (Str × FileNode)

/-- Data members of `class Directory` (its `FileNode` base included). -/
structure Directory where
  _file_attribute : FileAttribute
  _files : FileMap
deriving Repr

/-- A `Directory` seen through a `FileNode*`. -/
def Directory.toNode (d : Directory) : FileNode :=
  .directory d._file_attribute d._files

/-- Outcomes of the source that are undefined behaviour in C++, plus fuel exhaustion of the
model. -/
inductive Fault where
  | badCast
  | nullDeref
  | bufferOverrun
  | outOfFuel
deriving DecidableEq, Repr

/-! ## The `_files` map -/

/-- The call `_files.find(key)`: the node stored under `key`, if any. -/
def mapFind : FileMap → Str → Option FileNode
  | [], _ => none
  | (k, v) :: rest, key => if k = key then some v else mapFind rest key

/-- The assignment `_files[key] = node`: replaces the entry or adds one. -/
def mapAssign : FileMap → Str → FileNode → FileMap
  | [], key, node => [(key, node)]
  | (k, v) :: rest, key, node =>
    if k = key then (k, node) :: rest else (k, v) :: mapAssign rest key node

/-- The call `_files.erase(key)`. -/
def mapErase : FileMap → Str → FileMap
  | [], _ => []
  | (k, v) :: rest, key => if k = key then rest else (k, v) :: mapErase rest key

/-! ## Node operations -/

/-- The body of `FileNode::initialize`: the attributes after setting the name and stamping
both time points with the one clock reading `now`. -/
def FileAttribute.initialize (_ : FileAttribute) (file_name : Str) (now : Nat) :
    FileAttribute :=
  { _file_name := file_name, _creation_time := now, _last_modified_time := now }

/-- The method `FileNode::initialize`, inherited by `File`. -/
def File.initialize (f : File) (file_name : Str) (now : Nat) : File :=
  { f with _file_attribute := FileAttribute.initialize f._file_attribute file_name now }

/-- The method `FileNode::initialize`, inherited by `Directory`. -/
def Directory.initialize (d : Directory) (file_name : Str) (now : Nat) : Directory :=
  { d with _file_attribute := FileAttribute.initialize d._file_attribute file_name now }

/-- The constructor `File()`. -/
def File.new : File := ⟨FileAttribute.default, [], 0⟩

/-- The implicit constructor `Directory()`. -/
def Directory.new : Directory := ⟨FileAttribute.default, []⟩

/-- The method `File::fill`: copies `size` bytes of `buffer`; reading more bytes than the
buffer holds is a fault. -/
def File.fill (f : File) (buffer : Str) (size : Nat) : Except Fault File :=
  if size ≤ buffer.length then
    .ok { f with _file_contents := buffer.take size, _size := size }
  else .error .bufferOverrun

/-- The method `isFile`. -/
def FileNode.isFile : FileNode → Bool
  | .file _ => true
  | .directory _ _ => false

mutual
/-- The method `getSize` of `File` and of `Directory`. -/
def FileNode.getSize : FileNode → Nat
  | .file f => f._size
  | .directory _ fs => getSizeLoop fs 0
/-- The loop of `Directory::getSize` over `_files`, `total_size` being the accumulator. -/
def getSizeLoop : FileMap → Nat → Nat
  | [], total_size => total_size
  | (_, node) :: rest, total_size => getSizeLoop rest ((total_size + node.getSize) % SIZE_MOD)
end

deriving instance DecidableEq for Except

/-- The method `Directory::getSize`. -/
def Directory.getSize (d : Directory) : Nat := getSizeLoop d._files 0

/-! ## Path split -/

/-- The `while` loop of `Directory::get`: the first argument is the unread part
`file_path[pos ..]` of the path, so the loop condition
`pos < file_path_size && file_path[pos] != '\\'` reads as: the unread part is not empty and
does not start with the separator. -/
def get.loop : Str → Nat → Nat
  | [], pos => pos
  | c :: rest, pos => if c ≠ '\\' then get.loop rest (pos + 1) else pos

/-- The method `Directory::get`: index of the first separator, or the size of the path. -/
def get (file_path : Str) : Nat := get.loop file_path 0

/-! ## Insertion and deletion -/

/-- The method `Directory::addFile` with a fuel argument bounding the recursion depth;
`clock` is the state of the steady clock, returned updated. -/
def Directory.addFileFuel :
    Nat → Directory → Str → Str → Nat → Nat → Except Fault (Directory × Nat)
  | 0, _, _, _, _, _ => .error .outOfFuel
  | fuel + 1, d, file_path, buffer, file_size, clock =>
    let idx := get file_path
    if idx = file_path.length ∨ file_path[idx]? = some '\\' then
      -- This is a new/existing directory
      let directory := file_path.take idx
      let created : FileMap × Nat :=
        if (mapFind d._files directory).isNone then
          (mapAssign d._files directory
              (Directory.toNode ( Directory.initialize Directory.new directory clock)),
            clock + 1)
        else (d._files, clock)
      if idx ≠ file_path.length then
        -- we need to recurse further
        let new_file_path := file_path.drop (idx + 1)
        match mapFind created.1 directory with
        | none => .error .nullDeref
        | some (.file _) => .error .badCast
        | some (.directory a fs) =>
          match Directory.addFileFuel fuel ⟨a, fs⟩ new_file_path buffer file_size created.2 with
          | .error e => .error e
          | .ok (sub, clock2) =>
            .ok ({ d with _files := mapAssign created.1 directory sub.toNode }, clock2)
      else .ok ({ d with _files := created.1 }, created.2)
    else
      -- This is a terminal file
      match File.fill ( File.initialize File.new file_path clock) buffer file_size with
      | .error e => .error e
      | .ok new_file =>
        .ok ({ d with _files := mapAssign d._files file_path (.file new_file) }, clock + 1)

/-- The method `Directory::addFile`. -/
def Directory.addFile (d : Directory) (file_path buffer : Str) (file_size clock : Nat) :
    Except Fault (Directory × Nat) :=
  Directory.addFileFuel (file_path.length + 1) d file_path buffer file_size clock

/-- The method `Directory::deleteFile` with a fuel argument bounding the recursion depth. -/
def Directory.deleteFileFuel : Nat → Directory → Str → Except Fault Directory
  | 0, _, _ => .error .outOfFuel
  | fuel + 1, d, file_path =>
    let idx := get file_path
    if idx ≠ file_path.length ∧ file_path[idx]? = some '\\' then
      let directory := file_path.take idx
      match mapFind d._files directory with
      | none => .ok d  -- invalid path
      | some (.file _) => .error .badCast
      | some (.directory a fs) =>
        -- we need to recurse further
        let new_file_path := file_path.drop (idx + 1)
        match Directory.deleteFileFuel fuel ⟨a, fs⟩ new_file_path with
        | .error e => .error e
        | .ok sub => .ok { d with _files := mapAssign d._files directory sub.toNode }
    else .ok { d with _files := mapErase d._files file_path }

/-- The method `Directory::deleteFile`. -/
def Directory.deleteFile (d : Directory) (file_path : Str) : Except Fault Directory :=
  Directory.deleteFileFuel (file_path.length + 1) d file_path

/-! ## The facade -/

/-- Data members of `class FileSystem`. -/
structure FileSystem where
  _root : Directory
deriving Repr

/-- The constructor `FileSystem()`, as run by the first `getInstance()`: a root named `.`. -/
def FileSystem.new (clock : Nat) : FileSystem × Nat :=
  (⟨ Directory.initialize Directory.new ['.'] clock⟩, clock + 1)

/-- The method `FileSystem::addFile`. -/
def FileSystem.addFile (fs : FileSystem) (file_path buffer : Str) (file_size clock : Nat) :
    Except Fault (FileSystem × Nat) :=
  match fs._root.addFile file_path buffer file_size clock with
  | .error e => .error e
  | .ok (root, clock2) => .ok (⟨root⟩, clock2)

/-- The method `FileSystem::DeleteFile`. -/
def FileSystem.DeleteFile (fs : FileSystem) (file_path : Str) : Except Fault FileSystem :=
  match fs._root.deleteFile file_path with
  | .error e => .error e
  | .ok root => .ok ⟨root⟩

/-- The method `FileSystem::getTotalSize`. -/
def FileSystem.getTotalSize (fs : FileSystem) : Nat := fs._root.getSize

/-- The call sequence of `main()` up to the listing, on a fresh `FileSystem` and a clock
that starts at `0`. -/
def main : Except Fault (FileSystem × Nat) := do
  let (fs, clock) := FileSystem.new 0
  let (fs, clock) ← fs.addFile "file1.txt".toList "hello".toList 5 clock
  let (fs, clock) ← fs.addFile "file2.txt".toList "world!".toList 6 clock
  let (fs, clock) ← fs.addFile "dir1\\file1.txt".toList "data123".toList 7 clock
  let (fs, clock) ← fs.addFile "dir1\\file2.txt".toList "foo".toList 3 clock
  let (fs, clock) ← fs.addFile "dir1\\dir2\\file3.txt".toList "barbaz".toList 6 clock
  let (fs, clock) ← fs.addFile "dir3\\file4.txt".toList "abcdefgh".toList 8 clock
  let (fs, clock) ← fs.addFile "dir3\\file4.txt".toList "overwrite".toList 9 clock
  let (fs, clock) ← fs.addFile "dir3\\sub1\\sub2\\file5.txt".toList "deep".toList 4 clock
  let fs ← fs.DeleteFile "file2.txt".toList
  let fs ← fs.DeleteFile "dir1".toList
  pure (fs, clock)

/-- Scenario 1 of the specification on a fresh `FileSystem`: the first two calls of
`main()`. -/
def scenario1 : Except Fault (FileSystem × Nat) := do
  let (fs, clock) := FileSystem.new 0
  let (fs, clock) ← fs.addFile "file1.txt".toList "hello".toList 5 clock
  fs.addFile "file2.txt".toList "world!".toList 6 clock

/-- Scenario 2 of the specification on a fresh `FileSystem`: the three insertions under
`dir1`. -/
def scenario2 : Except Fault (FileSystem × Nat) := do
  let (fs, clock) := FileSystem.new 0
  let (fs, clock) ← fs.addFile "dir1\\file1.txt".toList "data123".toList 7 clock
  let (fs, clock) ← fs.addFile "dir1\\file2.txt".toList "foo".toList 3 clock
  fs.addFile "dir1\\dir2\\file3.txt".toList "barbaz".toList 6 clock

/-- Scenario 3 of the specification on a fresh `FileSystem`: two insertions at
`dir3\file4.txt`. -/
def scenario3 : Except Fault (FileSystem × Nat) := do
  let (fs, clock) := FileSystem.new 0
  let (fs, clock) ← fs.addFile "dir3\\file4.txt".toList "abcdefgh".toList 8 clock
  fs.addFile "dir3\\file4.txt".toList "overwrite".toList 9 clock

/-- Scenario 4 of the specification on a fresh `FileSystem`: the deep insertion. -/
def scenario4 : Except Fault (FileSystem × Nat) :=
  (FileSystem.new 0).1.addFile "dir3\\sub1\\sub2\\file5.txt".toList "deep".toList 4 1

/-! ## Notions of the specification -/

/-- The segments of a path: the maximal separator-free pieces, in order.  A path without
separator is its own single segment. -/
def segments : Str → List Str
  | [] => [[]]
  | c :: rest =>
    if c = '\\' then [] :: segments rest
    else
      match segments rest with
      | [] => [[c]]
      | s :: ss => (c :: s) :: ss

/-- Descent along a list of segments: every segment but the last must name a directory, the
last one names the node found. -/
def resolveSegs : FileMap → List Str → Option FileNode
  | _, [] => none
  | files, [s] => mapFind files s
  | files, s :: t :: rest =>
    match mapFind files s with
    | some (.directory _ sub) => resolveSegs sub (t :: rest)
    | _ => none

/-- The node a path resolves to, relative to a directory. -/
def Directory.resolve (d : Directory) (file_path : Str) : Option FileNode :=
  resolveSegs d._files (segments file_path)

/-- What the caller can observe of the node a path resolves to: whether it is a file, and
its size. -/
def Directory.observe (d : Directory) (file_path : Str) : Option (Bool × Nat) :=
  (d.resolve file_path).map (fun node => (node.isFile, node.getSize))

/-- Every intermediate segment that names an existing node names a directory. -/
def throughDirsSegs : FileMap → List Str → Bool
  | _, [] => true
  | _, [_] => true
  | files, s :: t :: rest =>
    match mapFind files s with
    | none => true
    | some (.file _) => false
    | some (.directory _ sub) => throughDirsSegs sub (t :: rest)

/-- The existing intermediate segments of a path are directories. -/
def Directory.throughDirs (d : Directory) (file_path : Str) : Bool :=
  throughDirsSegs d._files (segments file_path)

mutual
/-- Number of nodes of the subtree rooted at a node, the node included. -/
def FileNode.countNodes : FileNode → Nat
  | .file _ => 1
  | .directory _ fs => 1 + countNodesMap fs
/-- Number of nodes below the entries of a map. -/
def countNodesMap : FileMap → Nat
  | [] => 0
  | (_, node) :: rest => node.countNodes + countNodesMap rest
end

mutual
/-- Exact (unbounded) sum of the stored sizes of all file nodes of a subtree. -/
def FileNode.fileSum : FileNode → Nat
  | .file f => f._size
  | .directory _ fs => fileSumMap fs
/-- Exact sum of the stored sizes of all file nodes below the entries of a map. -/
def fileSumMap : FileMap → Nat
  | [] => 0
  | (_, node) :: rest => node.fileSum + fileSumMap rest
end

/-- The keys of a map, in list order. -/
def mapKeys (files : FileMap) : List Str := files.map Prod.fst

mutual
/-- Representation invariant of `std::unordered_map`: no directory of the subtree holds two
entries with the same key. -/
def FileNode.uniqueKeys : FileNode → Bool
  | .file _ => true
  | .directory _ fs => decide (fs.map Prod.fst).Nodup && uniqueKeysMap fs
/-- All nodes stored in a map satisfy `FileNode.uniqueKeys`. -/
def uniqueKeysMap : FileMap → Bool
  | [] => true
  | (_, node) :: rest => node.uniqueKeys && uniqueKeysMap rest
end

/-! ## Sample trees -/

/-- A directory `sub1` holding the directory `sub2`, which holds the file `file5.txt`
(4 bytes). -/
def sampleSub1 : FileNode :=
  .directory ⟨"sub1".toList, 4, 4⟩
    [("sub2".toList, .directory ⟨"sub2".toList, 5, 5⟩
      [("file5.txt".toList, .file ⟨⟨"file5.txt".toList, 6, 6⟩, "deep".toList, 4⟩)])]

/-- A directory `dir3` holding the file `file4.txt` (9 bytes) and the directory `sub1`. -/
def sampleDir3 : FileNode :=
  .directory ⟨"dir3".toList, 2, 2⟩
    [("file4.txt".toList, .file ⟨⟨"file4.txt".toList, 3, 3⟩, "overwrite".toList, 9⟩),
     ("sub1".toList, sampleSub1)]

/-- A root directory holding the file `file1.txt` (5 bytes) and the directory `dir3`: the
tree the specification describes as the final state of the composed scenario. -/
def sampleRoot : Directory :=
  ⟨⟨['.'], 0, 0⟩,
    [("file1.txt".toList, .file ⟨⟨"file1.txt".toList, 1, 1⟩, "hello".toList, 5⟩),
     ("dir3".toList, sampleDir3)]⟩

/-- A root directory whose only child is the file `a` (5 bytes). -/
def sampleFileRoot : Directory :=
  ⟨⟨['.'], 0, 0⟩, [(['a'], .file ⟨⟨['a'], 1, 1⟩, "hello".toList, 5⟩)]⟩

/-! ## Listing -/

mutual
/-- The method `listFiles` of `File` and of `Directory`; the result is the text written to
`std::cout`.  The `int indent` of the source is a natural number here. -/
def FileNode.listFiles : FileNode → Nat → Str
  | .file f, indent =>
    List.replicate indent ' ' ++ "- ".toList ++ f._file_attribute._file_name ++ " (".toList
      ++ Nat.toDigits 10 f._size ++ " bytes)".toList ++ "\n".toList
  | .directory a fs, indent =>
    List.replicate indent ' ' ++ "+ ".toList ++ a._file_name ++ "/\n".toList
      ++ listFilesLoop fs (indent + 2)
/-- The loop of `Directory::listFiles` over `_files`. -/
def listFilesLoop : FileMap → Nat → Str
  | [], _ => []
  | (_, node) :: rest, indent => node.listFiles indent ++ listFilesLoop rest indent
end

/-- The method `FileSystem::listAllFiles`: the text written to `std::cout`. -/
def FileSystem.listAllFiles (fs : FileSystem) : Str := fs._root.toNode.listFiles 0

/-! ## Sequences of calls -/

/-- A call of the two mutating methods of the facade. -/
inductive Call where
  | addFile (file_path buffer : Str) (file_size : Nat)
  | DeleteFile (file_path : Str)
deriving Repr

/-- One call on a filesystem and a clock. -/
def FileSystem.call (st : FileSystem × Nat) : Call → Except Fault (FileSystem × Nat)
  | .addFile file_path buffer file_size => st.1.addFile file_path buffer file_size st.2
  | .DeleteFile file_path =>
    match st.1.DeleteFile file_path with
    | .error e => .error e
    | .ok fs => .ok (fs, st.2)

/-- A sequence of calls, stopping at the first fault. -/
def FileSystem.run : FileSystem × Nat → List Call → Except Fault (FileSystem × Nat)
  | st, [] => .ok st
  | st, c :: rest =>
    match FileSystem.call st c with
    | .error e => .error e
    | .ok st2 => FileSystem.run st2 rest

/-! ## Invariants over all nodes -/

/-- The `_file_attribute` member of a node. -/
def FileNode.attribute : FileNode → FileAttribute
  | .file f => f._file_attribute
  | .directory a _ => a

mutual
/-- Every node of the subtree, the root of the subtree included, satisfies `φ`. -/
def FileNode.allNodes (φ : FileNode → Bool) : FileNode → Bool
  | .file f => φ (.file f)
  | .directory a fs => φ (.directory a fs) && allNodesMap φ fs
/-- Every node below the entries of a map satisfies `φ`. -/
def allNodesMap (φ : FileNode → Bool) : FileMap → Bool
  | [] => true
  | (_, node) :: rest => node.allNodes φ && allNodesMap φ rest
end

/-- The node is a directory. -/
def isDirectoryNode (node : FileNode) : Bool := !node.isFile

/-- Invariant I1 at one node: a file's `_size` is the length of its `_file_contents`. -/
def sizeMatches : FileNode → Bool
  | .file f => f._size == f._file_contents.length
  | .directory _ _ => true

/-- Invariant I3 at one node, in its strong form: both time points are equal. -/
def stampsEqual (node : FileNode) : Bool :=
  node.attribute._creation_time == node.attribute._last_modified_time

/-- Invariant I2 at one node: the keys of a directory are pairwise distinct. -/
def keysDistinct : FileNode → Bool
  | .file _ => true
  | .directory _ fs => decide (fs.map Prod.fst).Nodup

/-! ## The listing as the specification describes it -/

/-- The line of one node at depth `k`, without the line break: `2k` spaces, then
`+ <name>/` for a directory and `- <name> (<size> bytes)` for a file. -/
def specLine (k : Nat) : FileNode → Str
  | .file f =>
    List.replicate (2 * k) ' ' ++ "- ".toList ++ f._file_attribute._file_name ++ " (".toList
      ++ Nat.toDigits 10 f._size ++ " bytes)".toList
  | .directory a _ => List.replicate (2 * k) ' ' ++ "+ ".toList ++ a._file_name ++ "/".toList

mutual
/-- The lines of the listing in depth-first order: the line of the node, then, child after
child, the lines of each child subtree one level deeper. -/
def specLines : Nat → FileNode → List Str
  | k, .file f => [specLine k (.file f)]
  | k, .directory a fs => specLine k (.directory a fs) :: specLinesMap (k + 1) fs
/-- The lines of the subtrees stored in a map, subtree after subtree. -/
def specLinesMap : Nat → FileMap → List Str
  | _, [] => []
  | k, (_, node) :: rest => specLines k node ++ specLinesMap k rest
end

/-- The text of a list of lines, each followed by a line break. -/
def unlines : List Str → Str
  | [] => []
  | line :: rest => line ++ '\n' :: unlines rest

/-- A property of single nodes that holds of a freshly created directory and that a
directory keeps when one of its entries is assigned or erased. -/
structure LocalInv (φ : FileNode → Bool) : Prop where
  fresh : ∀ s c, φ (Directory.toNode ( Directory.initialize Directory.new s c)) = true
  assign : ∀ a fs k v, φ (.directory a fs) = true → φ (.directory a (mapAssign fs k v)) = true
  erase : ∀ a fs k, φ (.directory a fs) = true → φ (.directory a (mapErase fs k)) = true

/-- Two calls on the sample tree: an insertion below `dir3` and the deletion of
`file1.txt`. -/
def sampleCalls : List Call :=
  [.addFile "dir3\\new\\f.txt".toList "data".toList 4, .DeleteFile "file1.txt".toList]

/-- The state `sampleCalls` leads to from the sample tree and clock `7`. -/
def sampleAfter : FileSystem × Nat :=
  (⟨⟨⟨['.'], 0, 0⟩,
    [("dir3".toList, .directory ⟨"dir3".toList, 2, 2⟩
      [("file4.txt".toList, .file ⟨⟨"file4.txt".toList, 3, 3⟩, "overwrite".toList, 9⟩),
       ("sub1".toList, sampleSub1),
       ("new".toList, .directory ⟨"new".toList, 7, 7⟩
         [("f.txt".toList, .directory ⟨"f.txt".toList, 8, 8⟩ [])])])]⟩⟩, 9)

/-- Invariant I3 at one node, as the specification states it. -/
def stampsOrdered (node : FileNode) : Bool :=
  decide (node.attribute._creation_time ≤ node.attribute._last_modified_time)

/-- The namespace below `fs1` is the one below `fs0` grown by the prefixes of the segment
list `ts`: a non-empty segment list resolves in `fs1` exactly when it resolved in `fs0` or is
a prefix of `ts`, and whatever resolved in `fs0` still resolves, to a node of the same kind
with the same attributes. -/
def NamespaceGrows (fs0 fs1 : FileMap) (ts : List Str) : Prop :=
  (∀ segs, segs ≠ [] →
    ((resolveSegs fs1 segs).isSome = true ↔
      (resolveSegs fs0 segs).isSome = true ∨ segs <+: ts)) ∧
  (∀ segs node, resolveSegs fs0 segs = some node →
    ∃ node1, resolveSegs fs1 segs = some node1 ∧ node1.attribute = node.attribute ∧
      node1.isFile = node.isFile)

/-- A root directory all of whose nodes are directories: `dir3` holding `sub1`. -/
def sampleDirRoot : Directory :=
  ⟨⟨['.'], 0, 0⟩,
    [("dir3".toList, .directory ⟨"dir3".toList, 1, 1⟩
      [("sub1".toList, .directory ⟨"sub1".toList, 2, 2⟩ [])])]⟩

mutual
/-- Number of line breaks that occur inside the names of the nodes of a subtree. -/
def FileNode.nameBreaks : FileNode → Nat
  | .file f => f._file_attribute._file_name.count '\n'
  | .directory a fs => a._file_name.count '\n' + nameBreaksMap fs
/-- Number of line breaks inside the names of the nodes below the entries of a map. -/
def nameBreaksMap : FileMap → Nat
  | [] => 0
  | (_, node) :: rest => node.nameBreaks + nameBreaksMap rest
end


/-! ## Path split lemmas -/

theorem get_loop_add (p : Str) (pos : Nat) : get.loop p pos = pos + get.loop p 0 := by
  induction p generalizing pos with
  | nil => simp [get.loop]
  | cons c rest ih =>
    simp only [get.loop]
    split
    · rw [ih (pos + 1), ih (0 + 1)]; omega
    · rfl

theorem get_nil : get [] = 0 := rfl

theorem get_cons_sep (rest : Str) : get ('\\' :: rest) = 0 := by
  simp [get, get.loop]

theorem get_cons_ne (c : Char) (rest : Str) (hc : c ≠ '\\') : get (c :: rest) = get rest + 1 := by
  simp only [get, get.loop, if_pos hc]
  rw [get_loop_add]; omega

theorem get_le (p : Str) : get p ≤ p.length := by
  induction p with
  | nil => simp [get_nil]
  | cons c rest ih =>
    by_cases hc : c = '\\'
    · subst hc; simp [get_cons_sep]
    · rw [get_cons_ne c rest hc]; simp; exact ih

theorem get_of_not_mem (p : Str) (hp : '\\' ∉ p) : get p = p.length := by
  induction p with
  | nil => rfl
  | cons c rest ih =>
    simp only [List.mem_cons, not_or] at hp
    rw [get_cons_ne c rest (fun h => hp.1 h.symm), ih hp.2]; rfl

theorem get_append_sep (h t : Str) (hh : '\\' ∉ h) : get (h ++ '\\' :: t) = h.length := by
  induction h with
  | nil => simp [get_cons_sep]
  | cons c rest ih =>
    simp only [List.mem_cons, not_or] at hh
    rw [List.cons_append, get_cons_ne c _ (fun h => hh.1 h.symm), ih hh.2]; rfl

/-- Every path either has no separator or splits at its first separator. -/
theorem path_split (p : Str) : '\\' ∉ p ∨ ∃ h t, '\\' ∉ h ∧ p = h ++ '\\' :: t := by
  induction p with
  | nil => left; simp
  | cons c rest ih =>
    by_cases hc : c = '\\'
    · right; exact ⟨[], rest, by simp, by simp [hc]⟩
    · rcases ih with h | ⟨h, t, hh, rfl⟩
      · left; simp only [List.mem_cons, not_or]; exact ⟨fun e => hc e.symm, h⟩
      · right
        refine ⟨c :: h, t, ?_, by simp⟩
        simp only [List.mem_cons, not_or]; exact ⟨fun e => hc e.symm, hh⟩

/-- Induction over a path along its segments. -/
theorem path_induction {P : Str → Prop}
    (leaf : ∀ p, '\\' ∉ p → P p)
    (step : ∀ h t, '\\' ∉ h → P t → P (h ++ '\\' :: t)) : ∀ p, P p := by
  have key : ∀ n (p : Str), p.length ≤ n → P p := by
    intro n
    induction n with
    | zero =>
      intro p hn
      have hnil : p = [] := List.length_eq_zero.mp (Nat.le_zero.mp hn)
      subst hnil
      exact leaf [] (by simp)
    | succ n ih =>
      intro p hn
      rcases path_split p with hp | ⟨h, t, hh, rfl⟩
      · exact leaf p hp
      · apply step h t hh
        apply ih t
        simp only [List.length_append, List.length_cons] at hn
        omega
  exact fun p => key p.length p (Nat.le_refl _)

theorem segments_of_not_mem (p : Str) (hp : '\\' ∉ p) : segments p = [p] := by
  induction p with
  | nil => rfl
  | cons c rest ih =>
    simp only [List.mem_cons, not_or] at hp
    simp only [segments, if_neg (fun e : c = '\\' => hp.1 e.symm), ih hp.2]

theorem segments_append_sep (h t : Str) (hh : '\\' ∉ h) :
    segments (h ++ '\\' :: t) = h :: segments t := by
  induction h with
  | nil => simp [segments]
  | cons c rest ih =>
    simp only [List.mem_cons, not_or] at hh
    have e := ih hh.2
    rw [List.cons_append, segments, if_neg (fun e : c = '\\' => hh.1 e.symm), e]

theorem segments_ne_nil (p : Str) : segments p ≠ [] := by
  rcases path_split p with hp | ⟨h, t, hh, rfl⟩
  · rw [segments_of_not_mem p hp]; simp
  · rw [segments_append_sep h t hh]; simp

/-! ## Map lemmas -/

theorem mapFind_mapAssign_self (files : FileMap) (k : Str) (v : FileNode) :
    mapFind (mapAssign files k v) k = some v := by
  induction files with
  | nil => simp [mapAssign, mapFind]
  | cons e rest ih =>
    obtain ⟨k', v'⟩ := e
    by_cases hk : k' = k
    · simp [mapAssign, mapFind, hk]
    · simp [mapAssign, mapFind, hk, ih]

theorem mapFind_mapAssign_ne (files : FileMap) (k k' : Str) (v : FileNode) (hne : k ≠ k') :
    mapFind (mapAssign files k v) k' = mapFind files k' := by
  induction files with
  | nil => simp [mapAssign, mapFind, hne]
  | cons e rest ih =>
    obtain ⟨k1, v1⟩ := e
    by_cases hk : k1 = k
    · subst hk; simp [mapAssign, mapFind, hne]
    · by_cases hk' : k1 = k'
      · subst hk'; simp [mapAssign, mapFind, hk]
      · simp [mapAssign, mapFind, hk, hk', ih]

theorem mapAssign_mapAssign (files : FileMap) (k : Str) (v w : FileNode) :
    mapAssign (mapAssign files k v) k w = mapAssign files k w := by
  induction files with
  | nil => simp [mapAssign]
  | cons e rest ih =>
    obtain ⟨k', v'⟩ := e
    by_cases hk : k' = k
    · simp [mapAssign, hk]
    · simp [mapAssign, hk, ih]

theorem mapAssign_of_mapFind (files : FileMap) (k : Str) (v : FileNode)
    (hf : mapFind files k = some v) : mapAssign files k v = files := by
  induction files with
  | nil => simp [mapFind] at hf
  | cons e rest ih =>
    obtain ⟨k', v'⟩ := e
    by_cases hk : k' = k
    · simp [mapFind, hk] at hf; simp [mapAssign, hk, hf]
    · simp [mapFind, hk] at hf; simp [mapAssign, hk, ih hf]

theorem mapErase_of_mapFind_none (files : FileMap) (k : Str)
    (hf : mapFind files k = none) : mapErase files k = files := by
  induction files with
  | nil => rfl
  | cons e rest ih =>
    obtain ⟨k', v'⟩ := e
    by_cases hk : k' = k
    · simp [mapFind, hk] at hf
    · simp [mapFind, hk] at hf; simp [mapErase, hk, ih hf]

theorem mapFind_eq_none_iff (files : FileMap) (k : Str) :
    mapFind files k = none ↔ k ∉ mapKeys files := by
  induction files with
  | nil => simp [mapFind, mapKeys]
  | cons e rest ih =>
    obtain ⟨k', v'⟩ := e
    by_cases hk : k' = k
    · subst hk
      simp only [mapFind, if_true, mapKeys, List.map_cons, List.mem_cons, true_or,
        not_true_eq_false]
      exact ⟨fun h => (by cases h), fun h => h.elim⟩
    · simp only [mapFind, if_neg hk, ih, mapKeys, List.map_cons, List.mem_cons, not_or]
      constructor
      · intro h; exact ⟨fun e => hk e.symm, h⟩
      · intro h; exact h.2

theorem mapFind_mapErase_self (files : FileMap) (k : Str) (hnd : (mapKeys files).Nodup) :
    mapFind (mapErase files k) k = none := by
  induction files with
  | nil => rfl
  | cons e rest ih =>
    obtain ⟨k', v'⟩ := e
    simp only [mapKeys, List.map_cons, List.nodup_cons] at hnd
    by_cases hk : k' = k
    · subst hk
      simp only [mapErase, if_true]
      exact (mapFind_eq_none_iff rest k').mpr hnd.1
    · simp only [mapErase, if_neg hk, mapFind]
      exact ih hnd.2

/-! ## Unfolding `addFile` and `deleteFile` along the path -/

theorem path_facts (h t : Str) (hh : '\\' ∉ h) :
    get (h ++ '\\' :: t) ≠ (h ++ '\\' :: t).length ∧
    (h ++ '\\' :: t)[get (h ++ '\\' :: t)]? = some '\\' ∧
    (h ++ '\\' :: t).take (get (h ++ '\\' :: t)) = h ∧
    (h ++ '\\' :: t).drop (get (h ++ '\\' :: t) + 1) = t := by
  rw [get_append_sep h t hh]
  refine ⟨by simp, ?_, by simp, ?_⟩
  · rw [List.getElem?_append_right (Nat.le_refl _)]; simp
  · rw [show h ++ '\\' :: t = (h ++ ['\\']) ++ t by simp]
    exact List.drop_left' (by simp)

theorem addFileFuel_leaf (fuel : Nat) (d : Directory) (p b : Str) (s c : Nat) (hp : '\\' ∉ p) :
    Directory.addFileFuel (fuel + 1) d p b s c =
      .ok (if (mapFind d._files p).isNone then
          ({ d with
              _files := mapAssign d._files p
                (Directory.toNode ( Directory.initialize Directory.new p c)) }, c + 1)
        else (d, c)) := by
  have hg := get_of_not_mem p hp
  simp only [Directory.addFileFuel, hg, true_or, if_true, List.take_length, ne_eq,
    not_true_eq_false, if_false]
  split <;> rfl

theorem addFileFuel_step (fuel : Nat) (d : Directory) (h t b : Str) (s c : Nat)
    (hh : '\\' ∉ h) :
    Directory.addFileFuel (fuel + 1) d (h ++ '\\' :: t) b s c =
      match mapFind d._files h with
      | none =>
        match Directory.addFileFuel fuel ( Directory.initialize Directory.new h c) t b s
            (c + 1) with
        | .error e => .error e
        | .ok (sub, c2) => .ok ({ d with _files := mapAssign d._files h sub.toNode }, c2)
      | some (.file _) => .error .badCast
      | some (.directory a fs) =>
        match Directory.addFileFuel fuel ⟨a, fs⟩ t b s c with
        | .error e => .error e
        | .ok (sub, c2) => .ok ({ d with _files := mapAssign d._files h sub.toNode }, c2) := by
  obtain ⟨h1, h2, h3, h4⟩ := path_facts h t hh
  rw [Directory.addFileFuel]
  simp only [h1, h2, h3, h4, or_true, if_true, ne_eq, not_false_eq_true]
  cases hf : mapFind d._files h with
  | none =>
    simp only [Option.isNone_none, if_true, mapFind_mapAssign_self, Directory.toNode,
      mapAssign_mapAssign]
  | some v =>
    cases v with
    | file f => simp [hf]
    | directory a fs => simp [hf]

theorem addFileFuel_fuel (f1 : Nat) : ∀ (f2 : Nat) (d : Directory) (p b : Str) (s c : Nat),
    p.length < f1 → p.length < f2 →
    Directory.addFileFuel f1 d p b s c = Directory.addFileFuel f2 d p b s c := by
  induction f1 with
  | zero => intro f2 d p b s c h1; omega
  | succ f1 ih =>
    intro f2 d p b s c h1 h2
    cases f2 with
    | zero => omega
    | succ f2 =>
      rcases path_split p with hp | ⟨h, t, hh, rfl⟩
      · rw [addFileFuel_leaf f1 d p b s c hp, addFileFuel_leaf f2 d p b s c hp]
      · have l1 : t.length < f1 := by
          simp only [List.length_append, List.length_cons] at h1; omega
        have l2 : t.length < f2 := by
          simp only [List.length_append, List.length_cons] at h2; omega
        rw [addFileFuel_step f1 d h t b s c hh, addFileFuel_step f2 d h t b s c hh]
        cases hf : mapFind d._files h with
        | none => simp only [ih f2 _ t b s (c + 1) l1 l2]
        | some v =>
          cases v with
          | file f => rfl
          | directory a fs => simp only [ih f2 _ t b s c l1 l2]

theorem addFile_leaf (d : Directory) (p b : Str) (s c : Nat) (hp : '\\' ∉ p) :
    d.addFile p b s c =
      .ok (if (mapFind d._files p).isNone then
          ({ d with
              _files := mapAssign d._files p
                (Directory.toNode ( Directory.initialize Directory.new p c)) }, c + 1)
        else (d, c)) :=
  addFileFuel_leaf p.length d p b s c hp

theorem addFile_step (d : Directory) (h t b : Str) (s c : Nat) (hh : '\\' ∉ h) :
    d.addFile (h ++ '\\' :: t) b s c =
      match mapFind d._files h with
      | none =>
        match Directory.addFile ( Directory.initialize Directory.new h c) t b s (c + 1) with
        | .error e => .error e
        | .ok (sub, c2) => .ok ({ d with _files := mapAssign d._files h sub.toNode }, c2)
      | some (.file _) => .error .badCast
      | some (.directory a fs) =>
        match Directory.addFile ⟨a, fs⟩ t b s c with
        | .error e => .error e
        | .ok (sub, c2) => .ok ({ d with _files := mapAssign d._files h sub.toNode }, c2) := by
  have l1 : t.length < (h ++ '\\' :: t).length := by
    simp only [List.length_append, List.length_cons]; omega
  unfold Directory.addFile
  rw [addFileFuel_step _ d h t b s c hh]
  cases hf : mapFind d._files h with
  | none => simp only [addFileFuel_fuel _ (t.length + 1) _ t b s (c + 1) l1 (Nat.lt_succ_self _)]
  | some v =>
    cases v with
    | file f => rfl
    | directory a fs =>
      simp only [addFileFuel_fuel _ (t.length + 1) _ t b s c l1 (Nat.lt_succ_self _)]

theorem deleteFileFuel_leaf (fuel : Nat) (d : Directory) (p : Str) (hp : '\\' ∉ p) :
    Directory.deleteFileFuel (fuel + 1) d p = .ok { d with _files := mapErase d._files p } := by
  have hg := get_of_not_mem p hp
  simp only [Directory.deleteFileFuel, hg, ne_eq, not_true_eq_false, false_and, if_false]

theorem deleteFileFuel_step (fuel : Nat) (d : Directory) (h t : Str) (hh : '\\' ∉ h) :
    Directory.deleteFileFuel (fuel + 1) d (h ++ '\\' :: t) =
      match mapFind d._files h with
      | none => .ok d
      | some (.file _) => .error .badCast
      | some (.directory a fs) =>
        match Directory.deleteFileFuel fuel ⟨a, fs⟩ t with
        | .error e => .error e
        | .ok sub => .ok { d with _files := mapAssign d._files h sub.toNode } := by
  obtain ⟨h1, h2, h3, h4⟩ := path_facts h t hh
  rw [Directory.deleteFileFuel]
  simp only [h1, h2, h3, h4, ne_eq, not_false_eq_true, and_self, if_true]

theorem deleteFileFuel_fuel (f1 : Nat) : ∀ (f2 : Nat) (d : Directory) (p : Str),
    p.length < f1 → p.length < f2 →
    Directory.deleteFileFuel f1 d p = Directory.deleteFileFuel f2 d p := by
  induction f1 with
  | zero => intro f2 d p h1; omega
  | succ f1 ih =>
    intro f2 d p h1 h2
    cases f2 with
    | zero => omega
    | succ f2 =>
      rcases path_split p with hp | ⟨h, t, hh, rfl⟩
      · rw [deleteFileFuel_leaf f1 d p hp, deleteFileFuel_leaf f2 d p hp]
      · have l1 : t.length < f1 := by
          simp only [List.length_append, List.length_cons] at h1; omega
        have l2 : t.length < f2 := by
          simp only [List.length_append, List.length_cons] at h2; omega
        rw [deleteFileFuel_step f1 d h t hh, deleteFileFuel_step f2 d h t hh]
        cases hf : mapFind d._files h with
        | none => rfl
        | some v =>
          cases v with
          | file f => rfl
          | directory a fs => simp only [ih f2 _ t l1 l2]

theorem deleteFile_leaf (d : Directory) (p : Str) (hp : '\\' ∉ p) :
    d.deleteFile p = .ok { d with _files := mapErase d._files p } :=
  deleteFileFuel_leaf p.length d p hp

theorem deleteFile_step (d : Directory) (h t : Str) (hh : '\\' ∉ h) :
    d.deleteFile (h ++ '\\' :: t) =
      match mapFind d._files h with
      | none => .ok d
      | some (.file _) => .error .badCast
      | some (.directory a fs) =>
        match Directory.deleteFile ⟨a, fs⟩ t with
        | .error e => .error e
        | .ok sub => .ok { d with _files := mapAssign d._files h sub.toNode } := by
  have l1 : t.length < (h ++ '\\' :: t).length := by
    simp only [List.length_append, List.length_cons]; omega
  unfold Directory.deleteFile
  rw [deleteFileFuel_step _ d h t hh]
  cases hf : mapFind d._files h with
  | none => rfl
  | some v =>
    cases v with
    | file f => rfl
    | directory a fs =>
      simp only [deleteFileFuel_fuel _ (t.length + 1) _ t l1 (Nat.lt_succ_self _)]

/-! ## Resolution along the path -/

theorem resolve_leaf (d : Directory) (p : Str) (hp : '\\' ∉ p) :
    d.resolve p = mapFind d._files p := by
  simp only [Directory.resolve, segments_of_not_mem p hp, resolveSegs]

theorem resolveSegs_cons (files : FileMap) (s : Str) (segs : List Str) (hne : segs ≠ []) :
    resolveSegs files (s :: segs) =
      match mapFind files s with
      | some (.directory _ sub) => resolveSegs sub segs
      | _ => none := by
  cases segs with
  | nil => exact absurd rfl hne
  | cons t rest => rw [resolveSegs]

theorem resolve_step (d : Directory) (h t : Str) (hh : '\\' ∉ h) :
    d.resolve (h ++ '\\' :: t) =
      match mapFind d._files h with
      | some (.directory a sub) => Directory.resolve ⟨a, sub⟩ t
      | _ => none := by
  simp only [Directory.resolve, segments_append_sep h t hh]
  rw [resolveSegs_cons _ _ _ (segments_ne_nil t)]

theorem throughDirs_leaf (d : Directory) (p : Str) (hp : '\\' ∉ p) :
    d.throughDirs p = true := by
  simp only [Directory.throughDirs, segments_of_not_mem p hp, throughDirsSegs]

theorem throughDirsSegs_cons (files : FileMap) (s : Str) (segs : List Str) (hne : segs ≠ []) :
    throughDirsSegs files (s :: segs) =
      match mapFind files s with
      | none => true
      | some (.file _) => false
      | some (.directory _ sub) => throughDirsSegs sub segs := by
  cases segs with
  | nil => exact absurd rfl hne
  | cons t rest => rw [throughDirsSegs]

theorem throughDirs_step (d : Directory) (h t : Str) (hh : '\\' ∉ h) :
    d.throughDirs (h ++ '\\' :: t) =
      match mapFind d._files h with
      | none => true
      | some (.file _) => false
      | some (.directory a sub) => Directory.throughDirs ⟨a, sub⟩ t := by
  simp only [Directory.throughDirs, segments_append_sep h t hh]
  rw [throughDirsSegs_cons _ _ _ (segments_ne_nil t)]

/-! ## Node counts, sizes and the key invariant under map updates -/

theorem countNodesMap_mapErase (files : FileMap) (k : Str) (n : FileNode)
    (hf : mapFind files k = some n) :
    countNodesMap (mapErase files k) + n.countNodes = countNodesMap files := by
  induction files with
  | nil => simp [mapFind] at hf
  | cons e rest ih =>
    obtain ⟨k', v'⟩ := e
    by_cases hk : k' = k
    · simp only [mapFind, if_pos hk, Option.some.injEq] at hf
      subst hf
      simp only [mapErase, if_pos hk, countNodesMap]; omega
    · simp only [mapFind, if_neg hk] at hf
      simp only [mapErase, if_neg hk, countNodesMap]
      have := ih hf
      omega

theorem countNodesMap_mapAssign (files : FileMap) (k : Str) (old new : FileNode)
    (hf : mapFind files k = some old) :
    countNodesMap (mapAssign files k new) + old.countNodes =
      countNodesMap files + new.countNodes := by
  induction files with
  | nil => simp [mapFind] at hf
  | cons e rest ih =>
    obtain ⟨k', v'⟩ := e
    by_cases hk : k' = k
    · simp only [mapFind, if_pos hk, Option.some.injEq] at hf
      subst hf
      simp only [mapAssign, if_pos hk, countNodesMap]; omega
    · simp only [mapFind, if_neg hk] at hf
      simp only [mapAssign, if_neg hk, countNodesMap]
      have := ih hf
      omega

theorem fileSumMap_mapErase (files : FileMap) (k : Str) (n : FileNode)
    (hf : mapFind files k = some n) :
    fileSumMap (mapErase files k) + n.fileSum = fileSumMap files := by
  induction files with
  | nil => simp [mapFind] at hf
  | cons e rest ih =>
    obtain ⟨k', v'⟩ := e
    by_cases hk : k' = k
    · simp only [mapFind, if_pos hk, Option.some.injEq] at hf
      subst hf
      simp only [mapErase, if_pos hk, fileSumMap]; omega
    · simp only [mapFind, if_neg hk] at hf
      simp only [mapErase, if_neg hk, fileSumMap]
      have := ih hf
      omega

theorem fileSumMap_mapAssign (files : FileMap) (k : Str) (old new : FileNode)
    (hf : mapFind files k = some old) :
    fileSumMap (mapAssign files k new) + old.fileSum = fileSumMap files + new.fileSum := by
  induction files with
  | nil => simp [mapFind] at hf
  | cons e rest ih =>
    obtain ⟨k', v'⟩ := e
    by_cases hk : k' = k
    · simp only [mapFind, if_pos hk, Option.some.injEq] at hf
      subst hf
      simp only [mapAssign, if_pos hk, fileSumMap]; omega
    · simp only [mapFind, if_neg hk] at hf
      simp only [mapAssign, if_neg hk, fileSumMap]
      have := ih hf
      omega

theorem fileSumMap_mapAssign_new (files : FileMap) (k : Str) (new : FileNode)
    (hf : mapFind files k = none) :
    fileSumMap (mapAssign files k new) = fileSumMap files + new.fileSum := by
  induction files with
  | nil => simp [mapAssign, fileSumMap]
  | cons e rest ih =>
    obtain ⟨k', v'⟩ := e
    by_cases hk : k' = k
    · simp [mapFind, hk] at hf
    · simp only [mapFind, if_neg hk] at hf
      simp only [mapAssign, if_neg hk, fileSumMap, ih hf]
      omega

theorem uniqueKeys_of_mapFind (files : FileMap) (k : Str) (n : FileNode)
    (hu : uniqueKeysMap files = true) (hf : mapFind files k = some n) :
    n.uniqueKeys = true := by
  induction files with
  | nil => simp [mapFind] at hf
  | cons e rest ih =>
    obtain ⟨k', v'⟩ := e
    simp only [uniqueKeysMap, Bool.and_eq_true] at hu
    by_cases hk : k' = k
    · simp only [mapFind, if_pos hk, Option.some.injEq] at hf
      subst hf; exact hu.1
    · simp only [mapFind, if_neg hk] at hf
      exact ih hu.2 hf

theorem uniqueKeys_directory (a : FileAttribute) (fs : FileMap) :
    (FileNode.directory a fs).uniqueKeys = true ↔
      (mapKeys fs).Nodup ∧ uniqueKeysMap fs = true := by
  simp [FileNode.uniqueKeys, mapKeys]

/-! ## Size aggregation -/

theorem SIZE_MOD_pos : 0 < SIZE_MOD := by decide

mutual
theorem getSize_modEq_fileSum : ∀ n : FileNode, n.getSize % SIZE_MOD = n.fileSum % SIZE_MOD
  | .file f => by simp [FileNode.getSize, FileNode.fileSum]
  | .directory a fs => by
    rw [FileNode.getSize, FileNode.fileSum, getSizeLoop_eq fs 0 SIZE_MOD_pos]
    simp
theorem getSizeLoop_eq : ∀ (fs : FileMap) (total : Nat), total < SIZE_MOD →
    getSizeLoop fs total = (total + fileSumMap fs) % SIZE_MOD
  | [], total, ht => by
    simp [getSizeLoop, fileSumMap, Nat.mod_eq_of_lt ht]
  | (k, node) :: rest, total, _ => by
    rw [getSizeLoop, getSizeLoop_eq rest _ (Nat.mod_lt _ SIZE_MOD_pos), fileSumMap]
    have h2 : node.getSize ≡ node.fileSum [MOD SIZE_MOD] := getSize_modEq_fileSum node
    have h1 : (total + node.getSize) % SIZE_MOD ≡ total + node.getSize [MOD SIZE_MOD] :=
      Nat.mod_modEq _ _
    have h3 : (total + node.getSize) % SIZE_MOD + fileSumMap rest ≡
        total + (node.fileSum + fileSumMap rest) [MOD SIZE_MOD] := by
      rw [← Nat.add_assoc]
      exact (h1.trans (h2.add_left total)).add_right _
    exact h3
end

theorem getSizeLoop_children : ∀ (fs : FileMap) (total : Nat), total < SIZE_MOD →
    getSizeLoop fs total = (total + (fs.map (fun e => e.2.getSize)).sum) % SIZE_MOD
  | [], total, ht => by
    simp [getSizeLoop, Nat.mod_eq_of_lt ht]
  | (k, node) :: rest, total, _ => by
    rw [getSizeLoop, getSizeLoop_children rest _ (Nat.mod_lt _ SIZE_MOD_pos), List.map_cons,
      List.sum_cons, ← Nat.add_assoc]
    exact (Nat.mod_modEq _ _).add_right _

theorem Directory.getSize_eq_fileSum_mod (d : Directory) :
    d.getSize = d.toNode.fileSum % SIZE_MOD := by
  rw [Directory.getSize, getSizeLoop_eq d._files 0 SIZE_MOD_pos, Directory.toNode,
    FileNode.fileSum, Nat.zero_add]

theorem getSize_eq_fileSum_of_lt (n : FileNode) (h : n.fileSum < SIZE_MOD) :
    n.getSize = n.fileSum := by
  cases n with
  | file f => rfl
  | directory a fs =>
    have := Directory.getSize_eq_fileSum_mod ⟨a, fs⟩
    rw [Directory.toNode, Nat.mod_eq_of_lt h] at this
    exact this

/-! ## Deletion of a resolved path -/

theorem resolveSegs_nil_map (segs : List Str) : resolveSegs [] segs = none := by
  match segs with
  | [] => rfl
  | [_] => rfl
  | _ :: _ :: _ => rfl

theorem throughDirsSegs_nil_map (segs : List Str) : throughDirsSegs [] segs = true := by
  match segs with
  | [] => rfl
  | [_] => rfl
  | _ :: _ :: _ => rfl

theorem resolveSegs_of_mapFind_none (files : FileMap) (s : Str) (segs : List Str)
    (hf : mapFind files s = none) : resolveSegs files (s :: segs) = none := by
  cases segs with
  | nil => simpa [resolveSegs] using hf
  | cons t rest => simp [resolveSegs, hf]

theorem deleteFile_resolved : ∀ (p : Str) (d : Directory) (n : FileNode),
    d.resolve p = some n →
    ∃ d', d.deleteFile p = .ok d' ∧ d'._file_attribute = d._file_attribute ∧
      countNodesMap d'._files + n.countNodes = countNodesMap d._files ∧
      fileSumMap d'._files + n.fileSum = fileSumMap d._files ∧
      (d.toNode.uniqueKeys = true →
        ∀ segs, segments p <+: segs → resolveSegs d'._files segs = none) := by
  intro p
  induction p using path_induction with
  | leaf p hp =>
    intro d n hr
    rw [resolve_leaf d p hp] at hr
    refine ⟨_, deleteFile_leaf d p hp, rfl, countNodesMap_mapErase _ _ _ hr,
      fileSumMap_mapErase _ _ _ hr, ?_⟩
    intro hu segs hpre
    rw [Directory.toNode, uniqueKeys_directory] at hu
    rw [segments_of_not_mem p hp] at hpre
    obtain ⟨rest, rfl⟩ := hpre
    exact resolveSegs_of_mapFind_none _ _ _ (mapFind_mapErase_self _ _ hu.1)
  | step h t hh ih =>
    intro d n hr
    rw [resolve_step d h t hh] at hr
    rw [deleteFile_step d h t hh]
    cases hf : mapFind d._files h with
    | none => simp [hf] at hr
    | some v =>
      cases v with
      | file f => simp [hf] at hr
      | directory a sub =>
        simp only [hf] at hr
        obtain ⟨sub', hdel, _, hcount, hsum, hgone⟩ := ih ⟨a, sub⟩ n hr
        refine ⟨{ d with _files := mapAssign d._files h sub'.toNode }, by simp [hdel], rfl,
          ?_, ?_, ?_⟩
        · have := countNodesMap_mapAssign d._files h _ sub'.toNode hf
          simp only [Directory.toNode, FileNode.countNodes] at this hcount ⊢
          omega
        · have := fileSumMap_mapAssign d._files h _ sub'.toNode hf
          simp only [Directory.toNode, FileNode.fileSum] at this hsum ⊢
          omega
        · intro hu segs hpre
          rw [Directory.toNode, uniqueKeys_directory] at hu
          have hsubu := uniqueKeys_of_mapFind _ _ _ hu.2 hf
          rw [segments_append_sep h t hh] at hpre
          obtain ⟨more, rfl⟩ := hpre
          rw [List.cons_append, resolveSegs_cons _ _ _ (by simp [segments_ne_nil t])]
          simp only [mapFind_mapAssign_self, Directory.toNode]
          exact hgone hsubu _ (List.prefix_append _ _)

/-! ## Insertion at an absent path -/

theorem addFile_absent : ∀ (p : Str) (d : Directory) (b : Str) (s c : Nat),
    d.resolve p = none → d.throughDirs p = true →
    ∃ d1 c1 n, d.addFile p b s c = .ok (d1, c1) ∧ d1._file_attribute = d._file_attribute ∧
      d1.resolve p = some n ∧ n.fileSum = 0 ∧ fileSumMap d1._files = fileSumMap d._files := by
  intro p
  induction p using path_induction with
  | leaf p hp =>
    intro d b s c hr _
    rw [resolve_leaf d p hp] at hr
    refine ⟨{ d with
        _files := mapAssign d._files p
          (Directory.toNode ( Directory.initialize Directory.new p c)) }, c + 1,
      Directory.toNode ( Directory.initialize Directory.new p c), ?_, ?_, ?_, ?_, ?_⟩
    · rw [addFile_leaf d p b s c hp, hr]; rfl
    · rfl
    · rw [resolve_leaf _ p hp]; exact mapFind_mapAssign_self _ _ _
    · rfl
    · rw [fileSumMap_mapAssign_new _ _ _ hr]; rfl
  | step h t hh ih =>
    intro d b s c hr ht
    rw [resolve_step d h t hh] at hr
    rw [throughDirs_step d h t hh] at ht
    rw [addFile_step d h t b s c hh]
    cases hf : mapFind d._files h with
    | none =>
      obtain ⟨sub, c1, n, hadd, _, hres, hn, hsum⟩ :=
        ih ( Directory.initialize Directory.new h c) b s (c + 1)
          (resolveSegs_nil_map _) (throughDirsSegs_nil_map _)
      refine ⟨{ d with _files := mapAssign d._files h sub.toNode }, c1, n, by simp [hadd], rfl,
        ?_, hn, ?_⟩
      · rw [resolve_step _ h t hh]
        simp only [mapFind_mapAssign_self, Directory.toNode]
        exact hres
      · rw [fileSumMap_mapAssign_new _ _ _ hf]
        simp only [Directory.toNode, FileNode.fileSum, hsum]
        rfl
    | some v =>
      cases v with
      | file f => simp [hf] at ht
      | directory a sub =>
        simp only [hf] at hr ht
        obtain ⟨sub1, c1, n, hadd, _, hres, hn, hsum⟩ := ih ⟨a, sub⟩ b s c hr ht
        refine ⟨{ d with _files := mapAssign d._files h sub1.toNode }, c1, n, by simp [hadd],
          rfl, ?_, hn, ?_⟩
        · rw [resolve_step _ h t hh]
          simp only [mapFind_mapAssign_self, Directory.toNode]
          exact hres
        · have := fileSumMap_mapAssign d._files h _ sub1.toNode hf
          simp only [Directory.toNode, FileNode.fileSum] at this hsum ⊢
          omega

/-! ## Fuel and recursion depth -/

theorem count_sep_of_not_mem (p : Str) (hp : '\\' ∉ p) : p.count '\\' = 0 :=
  List.count_eq_zero.mpr hp

theorem count_sep_append (h t : Str) (hh : '\\' ∉ h) :
    (h ++ '\\' :: t).count '\\' = t.count '\\' + 1 := by
  rw [List.count_append, count_sep_of_not_mem h hh, List.count_cons_self, Nat.zero_add]

theorem addFileFuel_fuel_count (f1 : Nat) :
    ∀ (f2 : Nat) (d : Directory) (p b : Str) (s c : Nat),
    p.count '\\' < f1 → p.count '\\' < f2 →
    Directory.addFileFuel f1 d p b s c = Directory.addFileFuel f2 d p b s c := by
  induction f1 with
  | zero => intro f2 d p b s c h1; omega
  | succ f1 ih =>
    intro f2 d p b s c h1 h2
    cases f2 with
    | zero => omega
    | succ f2 =>
      rcases path_split p with hp | ⟨h, t, hh, rfl⟩
      · rw [addFileFuel_leaf f1 d p b s c hp, addFileFuel_leaf f2 d p b s c hp]
      · rw [count_sep_append h t hh] at h1 h2
        have l1 : t.count '\\' < f1 := by omega
        have l2 : t.count '\\' < f2 := by omega
        rw [addFileFuel_step f1 d h t b s c hh, addFileFuel_step f2 d h t b s c hh]
        cases hf : mapFind d._files h with
        | none => simp only [ih f2 _ t b s (c + 1) l1 l2]
        | some v =>
          cases v with
          | file f => rfl
          | directory a fs => simp only [ih f2 _ t b s c l1 l2]

theorem deleteFileFuel_fuel_count (f1 : Nat) : ∀ (f2 : Nat) (d : Directory) (p : Str),
    p.count '\\' < f1 → p.count '\\' < f2 →
    Directory.deleteFileFuel f1 d p = Directory.deleteFileFuel f2 d p := by
  induction f1 with
  | zero => intro f2 d p h1; omega
  | succ f1 ih =>
    intro f2 d p h1 h2
    cases f2 with
    | zero => omega
    | succ f2 =>
      rcases path_split p with hp | ⟨h, t, hh, rfl⟩
      · rw [deleteFileFuel_leaf f1 d p hp, deleteFileFuel_leaf f2 d p hp]
      · rw [count_sep_append h t hh] at h1 h2
        have l1 : t.count '\\' < f1 := by omega
        have l2 : t.count '\\' < f2 := by omega
        rw [deleteFileFuel_step f1 d h t hh, deleteFileFuel_step f2 d h t hh]
        cases hf : mapFind d._files h with
        | none => rfl
        | some v =>
          cases v with
          | file f => rfl
          | directory a fs => simp only [ih f2 _ t l1 l2]

theorem addFile_ne_outOfFuel : ∀ (p : Str) (d : Directory) (b : Str) (s c : Nat),
    d.addFile p b s c ≠ .error .outOfFuel := by
  intro p
  induction p using path_induction with
  | leaf p hp =>
    intro d b s c
    rw [addFile_leaf d p b s c hp]
    exact fun h => by cases h
  | step h t hh ih =>
    intro d b s c
    rw [addFile_step d h t b s c hh]
    cases hf : mapFind d._files h with
    | none =>
      have := ih ( Directory.initialize Directory.new h c) b s (c + 1)
      cases hr : Directory.addFile ( Directory.initialize Directory.new h c) t b s (c + 1) with
      | error e =>
        rw [hr] at this
        simp only [ne_eq, Except.error.injEq] at this ⊢
        exact this
      | ok r => exact fun h => by cases h
    | some v =>
      cases v with
      | file f => exact fun h => by cases h
      | directory a fs =>
        have := ih ⟨a, fs⟩ b s c
        dsimp only
        cases hr : Directory.addFile ⟨a, fs⟩ t b s c with
        | error e =>
          rw [hr] at this
          simp only [ne_eq, Except.error.injEq] at this ⊢
          exact this
        | ok r => exact fun h => by cases h

theorem deleteFile_ne_outOfFuel : ∀ (p : Str) (d : Directory),
    d.deleteFile p ≠ .error .outOfFuel := by
  intro p
  induction p using path_induction with
  | leaf p hp =>
    intro d
    rw [deleteFile_leaf d p hp]
    exact fun h => by cases h
  | step h t hh ih =>
    intro d
    rw [deleteFile_step d h t hh]
    cases hf : mapFind d._files h with
    | none => exact fun h => by cases h
    | some v =>
      cases v with
      | file f => exact fun h => by cases h
      | directory a fs =>
        have := ih ⟨a, fs⟩
        dsimp only
        cases hr : Directory.deleteFile ⟨a, fs⟩ t with
        | error e =>
          rw [hr] at this
          simp only [ne_eq, Except.error.injEq] at this ⊢
          exact this
        | ok r => exact fun h => by cases h

theorem tail_shorter (p : Str) (hlt : get p < p.length) :
    (p.drop (get p + 1)).length < p.length ∧
    (p.drop (get p + 1)).count '\\' + 1 = p.count '\\' := by
  rcases path_split p with hp | ⟨h, t, hh, rfl⟩
  · rw [get_of_not_mem p hp] at hlt; omega
  · obtain ⟨_, _, _, h4⟩ := path_facts h t hh
    rw [h4, count_sep_append h t hh]
    simp only [List.length_append, List.length_cons]
    exact ⟨by omega, trivial⟩

/-! ## Path split, characterised -/

theorem get_lt_iff_mem (p : Str) : get p < p.length ↔ '\\' ∈ p := by
  rcases path_split p with hp | ⟨h, t, hh, rfl⟩
  · rw [get_of_not_mem p hp]
    exact ⟨fun h => absurd h (Nat.lt_irrefl _), fun h => absurd h hp⟩
  · rw [get_append_sep h t hh]
    simp

theorem get_before_ne_sep (p : Str) (j : Nat) (hj : j < get p) : p[j]? ≠ some '\\' := by
  rcases path_split p with hp | ⟨h, t, hh, rfl⟩
  · intro e; exact hp (List.getElem?_mem e)
  · rw [get_append_sep h t hh] at hj
    rw [List.getElem?_append_left hj]
    intro e; exact hh (List.getElem?_mem e)

/-! ## The claims -/

/-- C1 (the code at the failing input): `addFile("file1.txt", "hello", 5)` on an empty
directory returns normally and leaves under the name `file1.txt` a directory of size `0`
(not a file of size `5`); and on a directory that already holds the 5-byte file `a`,
`addFile("a", "xyz", 3)` leaves that file in place with its size `5` and its old contents. -/
theorem addFile_terminal_installs_directory :
    (Directory.new.addFile "file1.txt".toList "hello".toList 5 0).map
        (fun r => (mapFind r.1._files "file1.txt".toList).map
          (fun node => (node.isFile, node.getSize))) = .ok (some (false, 0)) ∧
    (sampleFileRoot.addFile ['a'] "xyz".toList 3 7).map
        (fun r => (mapFind r.1._files ['a']).map
          (fun node => (node.isFile, node.getSize))) = .ok (some (true, 5)) := by
  decide

/-- C2 (the code at the failing input): after `add("dir3\file4.txt", "abcdefgh", 8)` and
`add("dir3\file4.txt", "overwrite", 9)` on a fresh filesystem the node at that path is a
directory of size `0` (not a file of size `9`) and the size of `dir3` is `0` (not `9`). -/
theorem addFile_twice_leaves_directory :
    scenario3.map (fun r =>
      (r.1._root.observe "dir3\\file4.txt".toList, r.1._root.observe "dir3".toList)) =
      .ok (some (false, 0), some (false, 0)) := by
  decide!

/-- C3 (the code at the failing input): on a fresh filesystem `addFile("file1.txt", "hello",
5)` leaves `getTotalSize()` at `0`; after scenario 1 the total is `0` (not `11`), and after
scenario 2 the total, the size of `dir1` and the size of `dir1\dir2` are all `0` (not `16`,
`16` and `6`). -/
theorem addFile_leaves_total_size :
    (FileSystem.new 0).1.getTotalSize = 0 ∧
    ((FileSystem.new 0).1.addFile "file1.txt".toList "hello".toList 5 1).map
      (fun r => r.1.getTotalSize) = .ok 0 ∧
    scenario1.map (fun r => r.1.getTotalSize) = .ok 0 ∧
    scenario2.map (fun r => (r.1.getTotalSize, r.1._root.observe "dir1".toList,
      r.1._root.observe "dir1\\dir2".toList)) = .ok (0, some (false, 0), some (false, 0)) := by
  decide!

/-- C4 (the code at the failing input): after the call sequence of `main()` on a fresh
filesystem `getTotalSize()` is `0` (not `18`), and `file1.txt`, `dir3\file4.txt` and
`dir3\sub1\sub2\file5.txt` are directories of size `0` (not files of sizes `5`, `9`, `4`);
`file2.txt` and `dir1` are gone. -/
theorem main_final_state :
    main.map (fun r =>
      (r.1.getTotalSize,
       [r.1._root.observe "file1.txt".toList,
        r.1._root.observe "dir3\\file4.txt".toList,
        r.1._root.observe "dir3\\sub1\\sub2\\file5.txt".toList,
        r.1._root.observe "file2.txt".toList,
        r.1._root.observe "dir1".toList])) =
      .ok (0, [some (false, 0), some (false, 0), some (false, 0), none, none]) := by
  decide!

/-- C5 (the code at the failing input): `add("dir3\sub1\sub2\file5.txt", "deep", 4)` on a
fresh filesystem makes `dir3`, `dir3\sub1` and `dir3\sub1\sub2` directories, and makes
`dir3\sub1\sub2\file5.txt` a directory of size `0` as well (not a file). -/
theorem addFile_deep_target_is_directory :
    scenario4.map (fun r =>
      [r.1._root.observe "dir3".toList,
       r.1._root.observe "dir3\\sub1".toList,
       r.1._root.observe "dir3\\sub1\\sub2".toList,
       r.1._root.observe "dir3\\sub1\\sub2\\file5.txt".toList]) =
      .ok [some (false, 0), some (false, 0), some (false, 0), some (false, 0)] := by
  decide!

/-- C6: deleting a path that resolves (through directories) to a node `n` succeeds; afterwards
no path that has `p` as a segment-prefix resolves, and the number of nodes of the tree has
decreased by exactly the number of nodes of the subtree rooted at `n`. -/
theorem deleteFile_removes_subtree (d : Directory) (p : Str) (n : FileNode)
    (hu : d.toNode.uniqueKeys = true) (hr : d.resolve p = some n) :
    ∃ d', d.deleteFile p = .ok d' ∧
      (∀ q, segments p <+: segments q → d'.resolve q = none) ∧
      d'.toNode.countNodes + n.countNodes = d.toNode.countNodes := by
  obtain ⟨d', hdel, _, hcount, _, hgone⟩ := deleteFile_resolved p d n hr
  refine ⟨d', hdel, fun q hq => hgone hu _ hq, ?_⟩
  simp only [Directory.toNode, FileNode.countNodes]
  omega

/-- Witness for C6: on the sample tree, deleting `dir3\sub1` (a directory of three nodes). -/
theorem deleteFile_removes_subtree_witness :
    sampleRoot.toNode.uniqueKeys = true ∧
    sampleRoot.resolve "dir3\\sub1".toList = some sampleSub1 ∧
    ∃ d', sampleRoot.deleteFile "dir3\\sub1".toList = .ok d' ∧
      (∀ q, segments "dir3\\sub1".toList <+: segments q → d'.resolve q = none) ∧
      d'.toNode.countNodes + sampleSub1.countNodes = sampleRoot.toNode.countNodes :=
  ⟨by decide, rfl,
    deleteFile_removes_subtree sampleRoot "dir3\\sub1".toList sampleSub1 (by decide) rfl⟩

/-- C7: when the sizes of all files of the tree sum to less than `2 ^ 64` (no wrap-around),
deleting a path that resolves through directories to a node `n` lowers `getTotalSize()` by
exactly `n.getSize()`. -/
theorem DeleteFile_subtracts_size (fs : FileSystem) (p : Str) (n : FileNode)
    (hr : fs._root.resolve p = some n) (hfit : fs._root.toNode.fileSum < SIZE_MOD) :
    ∃ fs', fs.DeleteFile p = .ok fs' ∧ n.getSize ≤ fs.getTotalSize ∧
      fs'.getTotalSize = fs.getTotalSize - n.getSize := by
  obtain ⟨d', hdel, _, _, hsum, _⟩ := deleteFile_resolved p fs._root n hr
  have hroot : fs._root.toNode.fileSum = fileSumMap fs._root._files := rfl
  have hd' : d'.toNode.fileSum = fileSumMap d'._files := rfl
  have e1 : fs.getTotalSize = fileSumMap fs._root._files := by
    rw [FileSystem.getTotalSize, Directory.getSize_eq_fileSum_mod, hroot, Nat.mod_eq_of_lt]
    omega
  have e2 : d'.getSize = fileSumMap d'._files := by
    rw [Directory.getSize_eq_fileSum_mod, hd', Nat.mod_eq_of_lt]
    omega
  have e3 : n.getSize = n.fileSum := getSize_eq_fileSum_of_lt n (by omega)
  refine ⟨⟨d'⟩, by simp [FileSystem.DeleteFile, hdel], ?_, ?_⟩
  · rw [e1, e3]; omega
  · rw [FileSystem.getTotalSize, e1, e2, e3]; omega

/-- Witness for C7: on the sample tree (total 18), deleting `dir3` (size 13). -/
theorem DeleteFile_subtracts_size_witness :
    sampleRoot.resolve "dir3".toList = some sampleDir3 ∧
    sampleRoot.toNode.fileSum < SIZE_MOD ∧
    ∃ fs', FileSystem.DeleteFile ⟨sampleRoot⟩ "dir3".toList = .ok fs' ∧
      sampleDir3.getSize ≤ FileSystem.getTotalSize ⟨sampleRoot⟩ ∧
      fs'.getTotalSize = FileSystem.getTotalSize ⟨sampleRoot⟩ - sampleDir3.getSize :=
  ⟨rfl, by decide,
    DeleteFile_subtracts_size ⟨sampleRoot⟩ "dir3".toList sampleDir3 rfl (by decide)⟩

/-- C8: deleting a path that does not resolve, in a tree whose existing intermediate
segments on the way are directories, returns normally and leaves the tree as it was. -/
theorem deleteFile_absent_noop (d : Directory) (p : Str)
    (hr : d.resolve p = none) (ht : d.throughDirs p = true) :
    d.deleteFile p = .ok d := by
  induction p using path_induction generalizing d with
  | leaf p hp =>
    rw [resolve_leaf d p hp] at hr
    rw [deleteFile_leaf d p hp, mapErase_of_mapFind_none _ _ hr]
  | step h t hh ih =>
    rw [resolve_step d h t hh] at hr
    rw [throughDirs_step d h t hh] at ht
    rw [deleteFile_step d h t hh]
    cases hf : mapFind d._files h with
    | none => rfl
    | some v =>
      cases v with
      | file f => simp [hf] at ht
      | directory a sub =>
        simp only [hf] at hr ht
        simp only [ih ⟨a, sub⟩ hr ht, Directory.toNode, mapAssign_of_mapFind _ _ _ hf]

/-- Witness for C8: on the sample tree, `delete("dir3\ghost\x")` and
`delete("does_not_exist")`. -/
theorem deleteFile_absent_noop_witness :
    (sampleRoot.resolve "dir3\\ghost\\x".toList = none ∧
      sampleRoot.throughDirs "dir3\\ghost\\x".toList = true ∧
      sampleRoot.deleteFile "dir3\\ghost\\x".toList = .ok sampleRoot) ∧
    (sampleRoot.resolve "does_not_exist".toList = none ∧
      sampleRoot.throughDirs "does_not_exist".toList = true ∧
      sampleRoot.deleteFile "does_not_exist".toList = .ok sampleRoot) :=
  ⟨⟨rfl, by decide,
      deleteFile_absent_noop sampleRoot "dir3\\ghost\\x".toList rfl (by decide)⟩,
    ⟨rfl, by decide, deleteFile_absent_noop sampleRoot "does_not_exist".toList rfl (by decide)⟩⟩

/-- Also in a tree that holds files: when `p` resolves to no node beforehand and its
existing intermediate segments are directories, `addFile(p, b, s)` followed by
`DeleteFile(p)` both return normally and `getTotalSize()` is what it was before. -/
theorem add_then_delete_total_of_absent (fs : FileSystem) (p b : Str) (s c : Nat)
    (hr : fs._root.resolve p = none) (ht : fs._root.throughDirs p = true) :
    ∃ fs1 c1 fs2, fs.addFile p b s c = .ok (fs1, c1) ∧ fs1.DeleteFile p = .ok fs2 ∧
      fs2.getTotalSize = fs.getTotalSize := by
  obtain ⟨d1, c1, n, hadd, _, hres, hn, hsum⟩ := addFile_absent p fs._root b s c hr ht
  obtain ⟨d2, hdel, _, _, hsum2, _⟩ := deleteFile_resolved p d1 n hres
  refine ⟨⟨d1⟩, c1, ⟨d2⟩, by simp [FileSystem.addFile, hadd],
    by simp [FileSystem.DeleteFile, hdel], ?_⟩
  simp only [FileSystem.getTotalSize, Directory.getSize_eq_fileSum_mod, Directory.toNode,
    FileNode.fileSum]
  congr 1
  omega

/-- C10: `Directory::getSize()` is the sum of `getSize()` over the direct children, and the
sum of the stored sizes of all file nodes of the subtree: exactly when that sum is below
`2 ^ 64`, modulo `2 ^ 64` otherwise; a directory seen as a node reports the same number, an
empty directory has size `0` and a file reports its stored `_size`. -/
theorem getSize_aggregation (d : Directory) :
    (d.getSize =
      if (d._files.map (fun e => e.2.getSize)).sum < SIZE_MOD
      then (d._files.map (fun e => e.2.getSize)).sum
      else (d._files.map (fun e => e.2.getSize)).sum % SIZE_MOD) ∧
    (d.getSize =
      if d.toNode.fileSum < SIZE_MOD then d.toNode.fileSum
      else d.toNode.fileSum % SIZE_MOD) ∧
    d.toNode.getSize = d.getSize ∧
    Directory.new.getSize = 0 ∧
    ∀ f : File, (FileNode.file f).getSize = f._size := by
  refine ⟨?_, ?_, rfl, rfl, fun _ => rfl⟩
  · rw [Directory.getSize, getSizeLoop_children d._files 0 SIZE_MOD_pos, Nat.zero_add]
    split
    · next h => exact Nat.mod_eq_of_lt h
    · rfl
  · rw [Directory.getSize_eq_fileSum_mod]
    split
    · next h => exact Nat.mod_eq_of_lt h
    · rfl
/-! ## The listing -/

theorem unlines_append (xs ys : List Str) : unlines (xs ++ ys) = unlines xs ++ unlines ys := by
  induction xs with
  | nil => rfl
  | cons x rest ih => simp [unlines, ih]

mutual
theorem listFiles_eq_specLines : ∀ (node : FileNode) (k : Nat),
    node.listFiles (2 * k) = unlines (specLines k node)
  | .file f, k => by
    simp [FileNode.listFiles, specLines, specLine, unlines]
  | .directory a fs, k => by
    have ih := listFilesLoop_eq_specLinesMap fs (k + 1)
    have e : 2 * k + 2 = 2 * (k + 1) := by omega
    rw [FileNode.listFiles, e, ih]
    simp [specLines, specLine, unlines]
theorem listFilesLoop_eq_specLinesMap : ∀ (fs : FileMap) (k : Nat),
    listFilesLoop fs (2 * k) = unlines (specLinesMap k fs)
  | [], k => by simp [listFilesLoop, specLinesMap, unlines]
  | (_, node) :: rest, k => by
    rw [listFilesLoop, specLinesMap, unlines_append, listFiles_eq_specLines node k,
      listFilesLoop_eq_specLinesMap rest k]
end

mutual
theorem specLines_length : ∀ (node : FileNode) (k : Nat),
    (specLines k node).length = node.countNodes
  | .file f, k => by simp [specLines, FileNode.countNodes]
  | .directory a fs, k => by
    simp [specLines, FileNode.countNodes, specLinesMap_length fs (k + 1)]
    omega
theorem specLinesMap_length : ∀ (fs : FileMap) (k : Nat),
    (specLinesMap k fs).length = countNodesMap fs
  | [], k => by simp [specLinesMap, countNodesMap]
  | (_, node) :: rest, k => by
    simp [specLinesMap, countNodesMap, specLines_length node k, specLinesMap_length rest k]
end

theorem specLine_mem_specLines (node : FileNode) (k : Nat) :
    specLine k node ∈ specLines k node := by
  cases node with
  | file f => simp [specLines]
  | directory a fs => simp [specLines]

theorem specLines_subset_of_mapFind (fs : FileMap) (key : Str) (node : FileNode) (k : Nat)
    (hf : mapFind fs key = some node) (line : Str) (hl : line ∈ specLines k node) :
    line ∈ specLinesMap k fs := by
  induction fs with
  | nil => simp [mapFind] at hf
  | cons e rest ih =>
    obtain ⟨k', v'⟩ := e
    rw [specLinesMap, List.mem_append]
    by_cases hk : k' = key
    · simp only [mapFind, if_pos hk, Option.some.injEq] at hf
      subst hf; exact Or.inl hl
    · simp only [mapFind, if_neg hk] at hf
      exact Or.inr (ih hf)

theorem specLine_mem_of_resolveSegs : ∀ (segs : List Str) (k : Nat) (fs : FileMap)
    (node : FileNode), resolveSegs fs segs = some node →
    specLine (k + segs.length) node ∈ specLinesMap (k + 1) fs := by
  intro segs
  induction segs with
  | nil => intro k fs node h; simp [resolveSegs] at h
  | cons s rest ih =>
    intro k fs node h
    cases rest with
    | nil =>
      simp only [resolveSegs] at h
      exact specLines_subset_of_mapFind fs s node (k + 1) h _ (specLine_mem_specLines _ _)
    | cons t rest =>
      rw [resolveSegs] at h
      cases hf : mapFind fs s with
      | none => simp [hf] at h
      | some v =>
        cases v with
        | file f => simp [hf] at h
        | directory a sub =>
          simp only [hf] at h
          have := ih (k + 1) sub node h
          apply specLines_subset_of_mapFind fs s _ (k + 1) hf
          rw [specLines]
          apply List.mem_cons_of_mem
          have e : k + (s :: t :: rest).length = k + 1 + (t :: rest).length := by
            simp only [List.length_cons]; omega
          rw [e]; exact this

/-! ## Invariants over all nodes -/

theorem allNodes_directory (φ : FileNode → Bool) (a : FileAttribute) (fs : FileMap) :
    (FileNode.directory a fs).allNodes φ = true ↔
      φ (.directory a fs) = true ∧ allNodesMap φ fs = true := by
  rw [FileNode.allNodes, Bool.and_eq_true]

theorem allNodes_of_mapFind (φ : FileNode → Bool) (fs : FileMap) (k : Str) (n : FileNode)
    (hall : allNodesMap φ fs = true) (hf : mapFind fs k = some n) : n.allNodes φ = true := by
  induction fs with
  | nil => simp [mapFind] at hf
  | cons e rest ih =>
    obtain ⟨k', v'⟩ := e
    simp only [allNodesMap, Bool.and_eq_true] at hall
    by_cases hk : k' = k
    · simp only [mapFind, if_pos hk, Option.some.injEq] at hf
      subst hf; exact hall.1
    · simp only [mapFind, if_neg hk] at hf
      exact ih hall.2 hf

theorem allNodesMap_mapAssign (φ : FileNode → Bool) (fs : FileMap) (k : Str) (v : FileNode)
    (hall : allNodesMap φ fs = true) (hv : v.allNodes φ = true) :
    allNodesMap φ (mapAssign fs k v) = true := by
  induction fs with
  | nil => simp [mapAssign, allNodesMap, hv]
  | cons e rest ih =>
    obtain ⟨k', v'⟩ := e
    simp only [allNodesMap, Bool.and_eq_true] at hall
    by_cases hk : k' = k
    · simp only [mapAssign, if_pos hk, allNodesMap, Bool.and_eq_true]
      exact ⟨hv, hall.2⟩
    · simp only [mapAssign, if_neg hk, allNodesMap, Bool.and_eq_true]
      exact ⟨hall.1, ih hall.2⟩

theorem allNodesMap_mapErase (φ : FileNode → Bool) (fs : FileMap) (k : Str)
    (hall : allNodesMap φ fs = true) : allNodesMap φ (mapErase fs k) = true := by
  induction fs with
  | nil => rfl
  | cons e rest ih =>
    obtain ⟨k', v'⟩ := e
    simp only [allNodesMap, Bool.and_eq_true] at hall
    by_cases hk : k' = k
    · simp only [mapErase, if_pos hk]; exact hall.2
    · simp only [mapErase, if_neg hk, allNodesMap, Bool.and_eq_true]
      exact ⟨hall.1, ih hall.2⟩

theorem addFile_allNodes (φ : FileNode → Bool) (hφ : LocalInv φ) :
    ∀ (p : Str) (d : Directory) (b : Str) (s c : Nat) (d1 : Directory) (c1 : Nat),
    d.toNode.allNodes φ = true → d.addFile p b s c = .ok (d1, c1) →
    d1.toNode.allNodes φ = true := by
  intro p
  induction p using path_induction with
  | leaf p hp =>
    intro d b s c d1 c1 hall hadd
    rw [addFile_leaf d p b s c hp] at hadd
    rw [Directory.toNode, allNodes_directory] at hall
    by_cases hnone : (mapFind d._files p).isNone = true
    · simp only [hnone, if_true, Except.ok.injEq, Prod.mk.injEq] at hadd
      rw [← hadd.1, Directory.toNode, allNodes_directory]
      refine ⟨hφ.assign _ _ _ _ hall.1, allNodesMap_mapAssign φ _ _ _ hall.2 ?_⟩
      rw [Directory.toNode, allNodes_directory]
      exact ⟨hφ.fresh p c, rfl⟩
    · simp only [hnone, Except.ok.injEq, Bool.false_eq_true, if_false, Prod.mk.injEq] at hadd
      rw [← hadd.1, Directory.toNode, allNodes_directory]
      exact hall
  | step h t hh ih =>
    intro d b s c d1 c1 hall hadd
    rw [addFile_step d h t b s c hh] at hadd
    rw [Directory.toNode, allNodes_directory] at hall
    cases hf : mapFind d._files h with
    | none =>
      rw [hf] at hadd
      dsimp only at hadd
      cases hr : Directory.addFile ( Directory.initialize Directory.new h c) t b s (c + 1) with
      | error e => rw [hr] at hadd; cases hadd
      | ok r =>
        obtain ⟨sub, c2⟩ := r
        rw [hr] at hadd
        simp only [Except.ok.injEq, Prod.mk.injEq] at hadd
        have hsub := ih _ b s (c + 1) sub c2
          (by rw [Directory.toNode, allNodes_directory]; exact ⟨hφ.fresh h c, rfl⟩) hr
        rw [← hadd.1, Directory.toNode, allNodes_directory]
        exact ⟨hφ.assign _ _ _ _ hall.1, allNodesMap_mapAssign φ _ _ _ hall.2 hsub⟩
    | some v =>
      cases v with
      | file f => rw [hf] at hadd; cases hadd
      | directory a fs =>
        rw [hf] at hadd
        dsimp only at hadd
        cases hr : Directory.addFile ⟨a, fs⟩ t b s c with
        | error e => rw [hr] at hadd; cases hadd
        | ok r =>
          obtain ⟨sub, c2⟩ := r
          rw [hr] at hadd
          simp only [Except.ok.injEq, Prod.mk.injEq] at hadd
          have hsub := ih ⟨a, fs⟩ b s c sub c2 (allNodes_of_mapFind φ _ _ _ hall.2 hf) hr
          rw [← hadd.1, Directory.toNode, allNodes_directory]
          exact ⟨hφ.assign _ _ _ _ hall.1, allNodesMap_mapAssign φ _ _ _ hall.2 hsub⟩

theorem deleteFile_allNodes (φ : FileNode → Bool) (hφ : LocalInv φ) :
    ∀ (p : Str) (d d1 : Directory),
    d.toNode.allNodes φ = true → d.deleteFile p = .ok d1 → d1.toNode.allNodes φ = true := by
  intro p
  induction p using path_induction with
  | leaf p hp =>
    intro d d1 hall hdel
    rw [deleteFile_leaf d p hp] at hdel
    rw [Directory.toNode, allNodes_directory] at hall
    simp only [Except.ok.injEq] at hdel
    rw [← hdel, Directory.toNode, allNodes_directory]
    exact ⟨hφ.erase _ _ _ hall.1, allNodesMap_mapErase φ _ _ hall.2⟩
  | step h t hh ih =>
    intro d d1 hall hdel
    rw [deleteFile_step d h t hh] at hdel
    cases hf : mapFind d._files h with
    | none =>
      rw [hf] at hdel
      simp only [Except.ok.injEq] at hdel
      rw [← hdel]; exact hall
    | some v =>
      rw [Directory.toNode, allNodes_directory] at hall
      cases v with
      | file f => rw [hf] at hdel; cases hdel
      | directory a fs =>
        rw [hf] at hdel
        dsimp only at hdel
        cases hr : Directory.deleteFile ⟨a, fs⟩ t with
        | error e => rw [hr] at hdel; cases hdel
        | ok sub =>
          rw [hr] at hdel
          simp only [Except.ok.injEq] at hdel
          have hsub := ih ⟨a, fs⟩ sub (allNodes_of_mapFind φ _ _ _ hall.2 hf) hr
          rw [← hdel, Directory.toNode, allNodes_directory]
          exact ⟨hφ.assign _ _ _ _ hall.1, allNodesMap_mapAssign φ _ _ _ hall.2 hsub⟩

theorem call_allNodes (φ : FileNode → Bool) (hφ : LocalInv φ) (st st1 : FileSystem × Nat)
    (c : Call) (hall : st.1._root.toNode.allNodes φ = true)
    (hcall : FileSystem.call st c = .ok st1) : st1.1._root.toNode.allNodes φ = true := by
  cases c with
  | addFile p b s =>
    simp only [FileSystem.call, FileSystem.addFile] at hcall
    cases hr : st.1._root.addFile p b s st.2 with
    | error e => rw [hr] at hcall; cases hcall
    | ok r =>
      obtain ⟨d1, c1⟩ := r
      rw [hr] at hcall
      simp only [Except.ok.injEq] at hcall
      rw [← hcall]
      exact addFile_allNodes φ hφ p _ b s _ d1 c1 hall hr
  | DeleteFile p =>
    simp only [FileSystem.call, FileSystem.DeleteFile] at hcall
    cases hr : st.1._root.deleteFile p with
    | error e => rw [hr] at hcall; cases hcall
    | ok d1 =>
      rw [hr] at hcall
      simp only [Except.ok.injEq] at hcall
      rw [← hcall]
      exact deleteFile_allNodes φ hφ p _ d1 hall hr

theorem run_allNodes (φ : FileNode → Bool) (hφ : LocalInv φ) (calls : List Call) :
    ∀ (st st1 : FileSystem × Nat), st.1._root.toNode.allNodes φ = true →
    FileSystem.run st calls = .ok st1 → st1.1._root.toNode.allNodes φ = true := by
  induction calls with
  | nil =>
    intro st st1 hall hrun
    simp only [FileSystem.run, Except.ok.injEq] at hrun
    rw [← hrun]; exact hall
  | cons c rest ih =>
    intro st st1 hall hrun
    rw [FileSystem.run] at hrun
    cases hc : FileSystem.call st c with
    | error e => rw [hc] at hrun; cases hrun
    | ok st2 =>
      rw [hc] at hrun
      exact ih st2 st1 (call_allNodes φ hφ st st2 c hall hc) hrun

theorem localInv_isDirectoryNode : LocalInv isDirectoryNode :=
  ⟨fun _ _ => rfl, fun _ _ _ _ _ => rfl, fun _ _ _ _ => rfl⟩

theorem localInv_sizeMatches : LocalInv sizeMatches :=
  ⟨fun _ _ => rfl, fun _ _ _ _ _ => rfl, fun _ _ _ _ => rfl⟩

theorem localInv_stampsEqual : LocalInv stampsEqual :=
  ⟨fun _ _ => by simp [stampsEqual, FileNode.attribute, Directory.toNode,
      Directory.initialize, FileAttribute.initialize],
    fun _ _ _ _ h => h, fun _ _ _ h => h⟩

/-! ## Trees of directories -/

theorem throughDirsSegs_of_allDirs : ∀ (segs : List Str) (fs : FileMap),
    allNodesMap isDirectoryNode fs = true → throughDirsSegs fs segs = true := by
  intro segs
  induction segs with
  | nil => intro fs _; rfl
  | cons s rest ih =>
    intro fs hall
    cases rest with
    | nil => rfl
    | cons t rest =>
      rw [throughDirsSegs]
      cases hf : mapFind fs s with
      | none => rfl
      | some v =>
        have hv := allNodes_of_mapFind _ _ _ _ hall hf
        cases v with
        | file f => simp [FileNode.allNodes, isDirectoryNode, FileNode.isFile] at hv
        | directory a sub =>
          rw [allNodes_directory] at hv
          exact ih sub hv.2

theorem throughDirs_of_allDirs (d : Directory) (p : Str)
    (hall : d.toNode.allNodes isDirectoryNode = true) : d.throughDirs p = true := by
  rw [Directory.toNode, allNodes_directory] at hall
  exact throughDirsSegs_of_allDirs _ _ hall.2

theorem addFile_ok : ∀ (p : Str) (d : Directory) (b : Str) (s c : Nat),
    d.throughDirs p = true → ∃ r, d.addFile p b s c = .ok r := by
  intro p
  induction p using path_induction with
  | leaf p hp =>
    intro d b s c _
    exact ⟨_, addFile_leaf d p b s c hp⟩
  | step h t hh ih =>
    intro d b s c ht
    rw [throughDirs_step d h t hh] at ht
    rw [addFile_step d h t b s c hh]
    cases hf : mapFind d._files h with
    | none =>
      obtain ⟨r, hr⟩ := ih ( Directory.initialize Directory.new h c) b s (c + 1)
        (throughDirsSegs_nil_map _)
      exact ⟨_, by simp only [hr]; rfl⟩
    | some v =>
      cases v with
      | file f => simp [hf] at ht
      | directory a fs =>
        simp only [hf] at ht
        obtain ⟨r, hr⟩ := ih ⟨a, fs⟩ b s c ht
        exact ⟨_, by simp only [hr]; rfl⟩

theorem deleteFile_ok : ∀ (p : Str) (d : Directory),
    d.throughDirs p = true → ∃ r, d.deleteFile p = .ok r := by
  intro p
  induction p using path_induction with
  | leaf p hp =>
    intro d _
    exact ⟨_, deleteFile_leaf d p hp⟩
  | step h t hh ih =>
    intro d ht
    rw [throughDirs_step d h t hh] at ht
    rw [deleteFile_step d h t hh]
    cases hf : mapFind d._files h with
    | none => exact ⟨_, rfl⟩
    | some v =>
      cases v with
      | file f => simp [hf] at ht
      | directory a fs =>
        simp only [hf] at ht
        obtain ⟨r, hr⟩ := ih ⟨a, fs⟩ ht
        exact ⟨_, by simp only [hr]; rfl⟩

theorem call_ok_of_allDirs (st : FileSystem × Nat) (c : Call)
    (hall : st.1._root.toNode.allNodes isDirectoryNode = true) :
    ∃ st1, FileSystem.call st c = .ok st1 := by
  cases c with
  | addFile p b s =>
    obtain ⟨r, hr⟩ := addFile_ok p st.1._root b s st.2 (throughDirs_of_allDirs _ p hall)
    exact ⟨_, by simp only [FileSystem.call, FileSystem.addFile, hr]; rfl⟩
  | DeleteFile p =>
    obtain ⟨r, hr⟩ := deleteFile_ok p st.1._root (throughDirs_of_allDirs _ p hall)
    exact ⟨_, by simp only [FileSystem.call, FileSystem.DeleteFile, hr]; rfl⟩

theorem run_ok_of_allDirs (calls : List Call) : ∀ (st : FileSystem × Nat),
    st.1._root.toNode.allNodes isDirectoryNode = true →
    ∃ st1, FileSystem.run st calls = .ok st1 ∧
      st1.1._root.toNode.allNodes isDirectoryNode = true := by
  induction calls with
  | nil => intro st hall; exact ⟨st, rfl, hall⟩
  | cons c rest ih =>
    intro st hall
    obtain ⟨st2, hc⟩ := call_ok_of_allDirs st c hall
    obtain ⟨st1, hrun, hall1⟩ :=
      ih st2 (call_allNodes _ localInv_isDirectoryNode st st2 c hall hc)
    exact ⟨st1, by rw [FileSystem.run, hc]; exact hrun, hall1⟩

theorem fresh_allDirs (clock0 : Nat) :
    (FileSystem.new clock0).1._root.toNode.allNodes isDirectoryNode = true := rfl

mutual
theorem fileSum_of_allDirs : ∀ node : FileNode,
    node.allNodes isDirectoryNode = true → node.fileSum = 0
  | .file f, h => by simp [FileNode.allNodes, isDirectoryNode, FileNode.isFile] at h
  | .directory a fs, h => by
    rw [allNodes_directory] at h
    rw [FileNode.fileSum]
    exact fileSumMap_of_allDirs fs h.2
theorem fileSumMap_of_allDirs : ∀ fs : FileMap,
    allNodesMap isDirectoryNode fs = true → fileSumMap fs = 0
  | [], _ => rfl
  | (_, node) :: rest, h => by
    simp only [allNodesMap, Bool.and_eq_true] at h
    rw [fileSumMap, fileSum_of_allDirs node h.1, fileSumMap_of_allDirs rest h.2]
end

theorem getSize_of_allDirs (d : Directory)
    (hall : d.toNode.allNodes isDirectoryNode = true) : d.getSize = 0 := by
  rw [Directory.getSize_eq_fileSum_mod, fileSum_of_allDirs _ hall]
  rfl

theorem get_branch (path : Str) : get path = path.length ∨ path[get path]? = some '\\' := by
  rcases path_split path with hp | ⟨h, t, hh, rfl⟩
  · exact Or.inl (get_of_not_mem path hp)
  · exact Or.inr (path_facts h t hh).2.1

/-! ## The namespace under `addFile` -/

theorem mapFind_mapErase_ne (fs : FileMap) (k s : Str) (hne : k ≠ s) :
    mapFind (mapErase fs k) s = mapFind fs s := by
  induction fs with
  | nil => rfl
  | cons e rest ih =>
    obtain ⟨k', v'⟩ := e
    by_cases hk : k' = k
    · subst hk; simp [mapErase, mapFind, hne]
    · by_cases hs : k' = s
      · subst hs; simp [mapErase, mapFind, hk]
      · simp [mapErase, mapFind, hk, hs, ih]

theorem resolveSegs_congr_head (fs1 fs2 : FileMap) (s : Str) (rest : List Str)
    (h : mapFind fs1 s = mapFind fs2 s) :
    resolveSegs fs1 (s :: rest) = resolveSegs fs2 (s :: rest) := by
  cases rest with
  | nil => simpa [resolveSegs] using h
  | cons t rest => rw [resolveSegs, resolveSegs, h]

theorem resolveSegs_assign_self (fs : FileMap) (k : Str) (a : FileAttribute) (sub : FileMap)
    (rest : List Str) (hne : rest ≠ []) :
    resolveSegs (mapAssign fs k (.directory a sub)) (k :: rest) = resolveSegs sub rest := by
  rw [resolveSegs_cons _ _ _ hne, mapFind_mapAssign_self]

theorem resolveSegs_prefix_directory : ∀ (segs more : List Str) (fs : FileMap)
    (node : FileNode), segs ≠ [] → more ≠ [] → resolveSegs fs (segs ++ more) = some node →
    ∃ a sub, resolveSegs fs segs = some (.directory a sub) := by
  intro segs
  induction segs with
  | nil => intro more fs node h; exact absurd rfl h
  | cons s rest ih =>
    intro more fs node _ hmore hres
    rw [List.cons_append, resolveSegs_cons _ _ _ (by simp [hmore])] at hres
    cases hf : mapFind fs s with
    | none => simp [hf] at hres
    | some v =>
      cases v with
      | file f => simp [hf] at hres
      | directory a sub =>
        simp only [hf] at hres
        cases rest with
        | nil => exact ⟨a, sub, by simpa [resolveSegs] using hf⟩
        | cons t rest =>
          obtain ⟨a1, sub1, h1⟩ := ih more sub node (by simp) hmore hres
          exact ⟨a1, sub1, by rw [resolveSegs, hf]; exact h1⟩

theorem namespaceGrows_nil : NamespaceGrows [] [] [] := by
  refine ⟨fun segs hne => ?_, fun segs node h => ?_⟩
  · simp only [resolveSegs_nil_map, Option.isSome_none, Bool.false_eq_true, false_or,
      false_iff]
    intro hp
    exact hne (List.prefix_nil.mp hp)
  · rw [resolveSegs_nil_map] at h; cases h

theorem namespaceGrows_present (fs : FileMap) (p : Str) (node : FileNode)
    (hf : mapFind fs p = some node) : NamespaceGrows fs fs [p] := by
  refine ⟨fun segs hne => ⟨Or.inl, fun h => ?_⟩, fun segs n h => ⟨n, h, rfl, rfl⟩⟩
  rcases h with h | h
  · exact h
  · cases segs with
    | nil => exact absurd rfl hne
    | cons s rest =>
      rw [List.cons_prefix_cons] at h
      obtain ⟨rfl, hrest⟩ := h
      rw [List.prefix_nil.mp hrest]
      simp [resolveSegs, hf]

theorem namespaceGrows_assign (fs : FileMap) (h : Str) (a1 : FileAttribute)
    (sub0 sub1 : FileMap) (ts : List Str)
    (hold : (mapFind fs h = none ∧ sub0 = []) ∨ mapFind fs h = some (.directory a1 sub0))
    (hsub : NamespaceGrows sub0 sub1 ts) :
    NamespaceGrows fs (mapAssign fs h (.directory a1 sub1)) (h :: ts) := by
  have hbefore : ∀ rest, rest ≠ [] → resolveSegs fs (h :: rest) = resolveSegs sub0 rest := by
    intro rest hne
    rw [resolveSegs_cons _ _ _ hne]
    rcases hold with ⟨hnone, rfl⟩ | hsome
    · rw [hnone, resolveSegs_nil_map]
    · rw [hsome]
  refine ⟨fun segs hne => ?_, fun segs node hres => ?_⟩
  · cases segs with
    | nil => exact absurd rfl hne
    | cons s rest =>
      by_cases hs : h = s
      · subst hs
        by_cases hrest : rest = []
        · subst hrest
          simp [resolveSegs, mapFind_mapAssign_self]
        · rw [resolveSegs_assign_self _ _ _ _ _ hrest, hbefore rest hrest,
            List.cons_prefix_cons]
          simp only [true_and]
          exact hsub.1 rest hrest
      · rw [resolveSegs_congr_head _ fs s rest (mapFind_mapAssign_ne _ _ _ _ hs),
          List.cons_prefix_cons]
        constructor
        · exact Or.inl
        · intro hh
          rcases hh with hh | hh
          · exact hh
          · exact absurd hh.1.symm hs
  · cases segs with
    | nil => simp [resolveSegs] at hres
    | cons s rest =>
      by_cases hs : h = s
      · subst hs
        by_cases hrest : rest = []
        · subst hrest
          simp only [resolveSegs] at hres
          rcases hold with ⟨hnone, _⟩ | hsome
          · rw [hnone] at hres; cases hres
          · rw [hsome] at hres
            simp only [Option.some.injEq] at hres
            subst hres
            exact ⟨.directory a1 sub1,
              by simp only [resolveSegs]; exact mapFind_mapAssign_self _ _ _, rfl, rfl⟩
        · rw [hbefore rest hrest] at hres
          rw [resolveSegs_assign_self _ _ _ _ _ hrest]
          exact hsub.2 rest node hres
      · rw [resolveSegs_congr_head _ fs s rest (mapFind_mapAssign_ne _ _ _ _ hs)]
        exact ⟨node, hres, rfl, rfl⟩

theorem addFile_effect : ∀ (p : Str) (d : Directory) (b : Str) (s c : Nat) (d1 : Directory)
    (c1 : Nat), d.addFile p b s c = .ok (d1, c1) →
    d1._file_attribute = d._file_attribute ∧ NamespaceGrows d._files d1._files (segments p) := by
  intro p
  induction p using path_induction with
  | leaf p hp =>
    intro d b s c d1 c1 hadd
    rw [addFile_leaf d p b s c hp] at hadd
    rw [segments_of_not_mem p hp]
    cases hf : mapFind d._files p with
    | none =>
      simp only [hf, Option.isNone_none, if_true, Except.ok.injEq, Prod.mk.injEq] at hadd
      rw [← hadd.1]
      exact ⟨rfl, namespaceGrows_assign d._files p _ [] [] [] (Or.inl ⟨hf, rfl⟩)
        namespaceGrows_nil⟩
    | some node =>
      simp only [hf, Option.isNone_some, Bool.false_eq_true, if_false, Except.ok.injEq,
        Prod.mk.injEq] at hadd
      rw [← hadd.1]
      exact ⟨rfl, namespaceGrows_present _ _ _ hf⟩
  | step h t hh ih =>
    intro d b s c d1 c1 hadd
    rw [addFile_step d h t b s c hh] at hadd
    rw [segments_append_sep h t hh]
    cases hf : mapFind d._files h with
    | none =>
      rw [hf] at hadd
      dsimp only at hadd
      cases hr : Directory.addFile ( Directory.initialize Directory.new h c) t b s (c + 1) with
      | error e => rw [hr] at hadd; cases hadd
      | ok r =>
        obtain ⟨sub, c2⟩ := r
        rw [hr] at hadd
        simp only [Except.ok.injEq, Prod.mk.injEq] at hadd
        obtain ⟨hattr, hgrow⟩ := ih _ b s (c + 1) sub c2 hr
        rw [← hadd.1]
        exact ⟨rfl, namespaceGrows_assign d._files h _ [] _ _ (Or.inl ⟨hf, rfl⟩) hgrow⟩
    | some v =>
      cases v with
      | file f => rw [hf] at hadd; cases hadd
      | directory a fs =>
        rw [hf] at hadd
        dsimp only at hadd
        cases hr : Directory.addFile ⟨a, fs⟩ t b s c with
        | error e => rw [hr] at hadd; cases hadd
        | ok r =>
          obtain ⟨sub, c2⟩ := r
          rw [hr] at hadd
          simp only [Except.ok.injEq, Prod.mk.injEq] at hadd
          obtain ⟨hattr, hgrow⟩ := ih ⟨a, fs⟩ b s c sub c2 hr
          rw [← hadd.1]
          refine ⟨rfl, ?_⟩
          have := namespaceGrows_assign d._files h sub._file_attribute fs sub._files
            (segments t) (Or.inr (by rw [hf, hattr])) hgrow
          exact this

theorem addFile_resolved : ∀ (p : Str) (d : Directory) (b : Str) (s c : Nat),
    (d.resolve p).isSome = true → d.addFile p b s c = .ok (d, c) := by
  intro p
  induction p using path_induction with
  | leaf p hp =>
    intro d b s c hres
    rw [resolve_leaf d p hp] at hres
    rw [addFile_leaf d p b s c hp]
    cases hf : mapFind d._files p with
    | none => rw [hf] at hres; cases hres
    | some node => simp
  | step h t hh ih =>
    intro d b s c hres
    rw [resolve_step d h t hh] at hres
    rw [addFile_step d h t b s c hh]
    cases hf : mapFind d._files h with
    | none => rw [hf] at hres; cases hres
    | some v =>
      cases v with
      | file f => rw [hf] at hres; cases hres
      | directory a fs =>
        simp only [hf] at hres
        simp only [ih ⟨a, fs⟩ b s c hres, Directory.toNode, mapAssign_of_mapFind _ _ _ hf]

/-! ## The namespace under `deleteFile` -/

theorem deleteFile_keeps : ∀ (p : Str) (d d1 : Directory), d.deleteFile p = .ok d1 →
    d1._file_attribute = d._file_attribute ∧
    ∀ segs node, resolveSegs d._files segs = some node → ¬ segments p <+: segs →
      ∃ node1, resolveSegs d1._files segs = some node1 ∧ node1.attribute = node.attribute ∧
        node1.isFile = node.isFile := by
  intro p
  induction p using path_induction with
  | leaf p hp =>
    intro d d1 hdel
    rw [deleteFile_leaf d p hp] at hdel
    simp only [Except.ok.injEq] at hdel
    rw [← hdel, segments_of_not_mem p hp]
    refine ⟨rfl, fun segs node hres hpre => ?_⟩
    cases segs with
    | nil => simp [resolveSegs] at hres
    | cons s rest =>
      have hs : p ≠ s := by
        intro e; subst e
        exact hpre ⟨rest, rfl⟩
      rw [resolveSegs_congr_head _ d._files s rest (mapFind_mapErase_ne _ _ _ hs)]
      exact ⟨node, hres, rfl, rfl⟩
  | step h t hh ih =>
    intro d d1 hdel
    rw [deleteFile_step d h t hh] at hdel
    rw [segments_append_sep h t hh]
    cases hf : mapFind d._files h with
    | none =>
      rw [hf] at hdel
      simp only [Except.ok.injEq] at hdel
      rw [← hdel]
      exact ⟨rfl, fun segs node hres _ => ⟨node, hres, rfl, rfl⟩⟩
    | some v =>
      cases v with
      | file f => rw [hf] at hdel; cases hdel
      | directory a fs =>
        rw [hf] at hdel
        dsimp only at hdel
        cases hr : Directory.deleteFile ⟨a, fs⟩ t with
        | error e => rw [hr] at hdel; cases hdel
        | ok sub =>
          rw [hr] at hdel
          simp only [Except.ok.injEq] at hdel
          obtain ⟨hattr, hkeep⟩ := ih ⟨a, fs⟩ sub hr
          rw [← hdel]
          refine ⟨rfl, fun segs node hres hpre => ?_⟩
          cases segs with
          | nil => simp [resolveSegs] at hres
          | cons s rest =>
            by_cases hs : h = s
            · subst hs
              by_cases hrest : rest = []
              · subst hrest
                simp only [resolveSegs] at hres
                rw [hf] at hres
                simp only [Option.some.injEq] at hres
                subst hres
                refine ⟨sub.toNode, ?_, hattr, rfl⟩
                simp only [resolveSegs]
                exact mapFind_mapAssign_self _ _ _
              · rw [resolveSegs_cons _ _ _ hrest, hf] at hres
                dsimp only at hres
                rw [Directory.toNode, resolveSegs_assign_self _ _ _ _ _ hrest]
                apply hkeep rest node hres
                intro hp
                exact hpre ((List.cons_prefix_cons).mpr ⟨rfl, hp⟩)
            · rw [resolveSegs_congr_head _ d._files s rest
                (mapFind_mapAssign_ne _ _ _ _ hs)]
              exact ⟨node, hres, rfl, rfl⟩

/-! ## Distinct keys as an invariant over all nodes -/

theorem mem_mapKeys_mapAssign (fs : FileMap) (k x : Str) (v : FileNode)
    (hx : x ∈ mapKeys (mapAssign fs k v)) : x ∈ mapKeys fs ∨ x = k := by
  induction fs with
  | nil =>
    simp only [mapAssign, mapKeys, List.map_cons, List.map_nil, List.mem_singleton] at hx
    exact Or.inr hx
  | cons e rest ih =>
    obtain ⟨k', v'⟩ := e
    by_cases hk : k' = k
    · simp only [mapAssign, if_pos hk, mapKeys, List.map_cons] at hx ⊢
      exact Or.inl hx
    · simp only [mapAssign, if_neg hk, mapKeys, List.map_cons, List.mem_cons] at hx ⊢
      rcases hx with hx | hx
      · exact Or.inl (Or.inl hx)
      · rcases ih hx with h1 | h1
        · exact Or.inl (Or.inr h1)
        · exact Or.inr h1

theorem nodup_mapKeys_mapAssign (fs : FileMap) (k : Str) (v : FileNode)
    (hnd : (mapKeys fs).Nodup) : (mapKeys (mapAssign fs k v)).Nodup := by
  induction fs with
  | nil => simp [mapAssign, mapKeys]
  | cons e rest ih =>
    obtain ⟨k', v'⟩ := e
    simp only [mapKeys, List.map_cons, List.nodup_cons] at hnd
    by_cases hk : k' = k
    · simp only [mapAssign, if_pos hk, mapKeys, List.map_cons, List.nodup_cons]
      exact hnd
    · simp only [mapAssign, if_neg hk, mapKeys, List.map_cons, List.nodup_cons]
      refine ⟨fun hmem => ?_, ih hnd.2⟩
      rcases mem_mapKeys_mapAssign rest k k' v hmem with h1 | h1
      · exact hnd.1 h1
      · exact hk h1

theorem mem_mapKeys_mapErase (fs : FileMap) (k x : Str)
    (hx : x ∈ mapKeys (mapErase fs k)) : x ∈ mapKeys fs := by
  induction fs with
  | nil => simp [mapErase, mapKeys] at hx
  | cons e rest ih =>
    obtain ⟨k', v'⟩ := e
    by_cases hk : k' = k
    · simp only [mapErase, if_pos hk] at hx
      simp only [mapKeys, List.map_cons, List.mem_cons]
      exact Or.inr hx
    · simp only [mapErase, if_neg hk, mapKeys, List.map_cons, List.mem_cons] at hx ⊢
      rcases hx with hx | hx
      · exact Or.inl hx
      · exact Or.inr (ih hx)

theorem nodup_mapKeys_mapErase (fs : FileMap) (k : Str)
    (hnd : (mapKeys fs).Nodup) : (mapKeys (mapErase fs k)).Nodup := by
  induction fs with
  | nil => simp [mapErase, mapKeys]
  | cons e rest ih =>
    obtain ⟨k', v'⟩ := e
    simp only [mapKeys, List.map_cons, List.nodup_cons] at hnd
    by_cases hk : k' = k
    · simp only [mapErase, if_pos hk]; exact hnd.2
    · simp only [mapErase, if_neg hk, mapKeys, List.map_cons, List.nodup_cons]
      exact ⟨fun hmem => hnd.1 (mem_mapKeys_mapErase rest k k' hmem), ih hnd.2⟩

theorem localInv_keysDistinct : LocalInv keysDistinct := by
  refine ⟨fun _ _ => by simp [keysDistinct, Directory.toNode, Directory.initialize,
    Directory.new], fun a fs k v h => ?_, fun a fs k h => ?_⟩
  · simp only [keysDistinct, decide_eq_true_eq] at h ⊢
    exact nodup_mapKeys_mapAssign fs k v h
  · simp only [keysDistinct, decide_eq_true_eq] at h ⊢
    exact nodup_mapKeys_mapErase fs k h

mutual
theorem uniqueKeys_eq_allNodes : ∀ node : FileNode,
    node.uniqueKeys = node.allNodes keysDistinct
  | .file f => rfl
  | .directory a fs => by
    rw [FileNode.uniqueKeys, FileNode.allNodes, uniqueKeysMap_eq_allNodesMap fs]
    rfl
theorem uniqueKeysMap_eq_allNodesMap : ∀ fs : FileMap,
    uniqueKeysMap fs = allNodesMap keysDistinct fs
  | [] => rfl
  | (_, node) :: rest => by
    rw [uniqueKeysMap, allNodesMap, uniqueKeys_eq_allNodes node,
      uniqueKeysMap_eq_allNodesMap rest]
end

mutual
theorem allNodes_mono (φ ψ : FileNode → Bool) (hφψ : ∀ n, φ n = true → ψ n = true) :
    ∀ node : FileNode, node.allNodes φ = true → node.allNodes ψ = true
  | .file f, h => by
    rw [FileNode.allNodes] at h ⊢
    exact hφψ _ h
  | .directory a fs, h => by
    rw [allNodes_directory] at h ⊢
    exact ⟨hφψ _ h.1, allNodesMap_mono φ ψ hφψ fs h.2⟩
theorem allNodesMap_mono (φ ψ : FileNode → Bool) (hφψ : ∀ n, φ n = true → ψ n = true) :
    ∀ fs : FileMap, allNodesMap φ fs = true → allNodesMap ψ fs = true
  | [], _ => rfl
  | (_, node) :: rest, h => by
    simp only [allNodesMap, Bool.and_eq_true] at h ⊢
    exact ⟨allNodes_mono φ ψ hφψ node h.1, allNodesMap_mono φ ψ hφψ rest h.2⟩
end

theorem stampsOrdered_of_stampsEqual (node : FileNode) (h : stampsEqual node = true) :
    stampsOrdered node = true := by
  simp only [stampsEqual, beq_iff_eq] at h
  simp only [stampsOrdered, decide_eq_true_eq, h]
  exact Nat.le_refl _

theorem fresh_stampsEqual (clock0 : Nat) :
    (FileSystem.new clock0).1._root.toNode.allNodes stampsEqual = true := by
  simp [FileSystem.new, Directory.initialize, FileAttribute.initialize, Directory.new,
    Directory.toNode, FileNode.allNodes, allNodesMap, stampsEqual, FileNode.attribute]

/-! ## Operations below a directory reached by a path -/

theorem deleteFile_under : ∀ (dpath : Str) (root : Directory) (a : FileAttribute)
    (fs : FileMap) (t : Str) (sub : Directory),
    root.resolve dpath = some (.directory a fs) → Directory.deleteFile ⟨a, fs⟩ t = .ok sub →
    ∃ root1, root.deleteFile (dpath ++ '\\' :: t) = .ok root1 ∧
      root1.resolve dpath = some sub.toNode ∧ (sub = ⟨a, fs⟩ → root1 = root) := by
  intro dpath
  induction dpath using path_induction with
  | leaf p hp =>
    intro root a fs t sub hres hdel
    rw [resolve_leaf root p hp] at hres
    refine ⟨{ root with _files := mapAssign root._files p sub.toNode }, ?_, ?_, ?_⟩
    · rw [deleteFile_step root p t hp, hres]
      dsimp only
      rw [hdel]
    · rw [resolve_leaf _ p hp]
      exact mapFind_mapAssign_self _ _ _
    · intro e
      subst e
      rw [Directory.toNode, mapAssign_of_mapFind _ _ _ hres]
  | step h t1 hh ih =>
    intro root a fs t sub hres hdel
    rw [resolve_step root h t1 hh] at hres
    have e : (h ++ '\\' :: t1) ++ '\\' :: t = h ++ '\\' :: (t1 ++ '\\' :: t) := by simp
    cases hf : mapFind root._files h with
    | none => rw [hf] at hres; cases hres
    | some v =>
      cases v with
      | file f => rw [hf] at hres; cases hres
      | directory a1 sub1 =>
        simp only [hf] at hres
        obtain ⟨r1, hr1, hres1, hsame⟩ := ih ⟨a1, sub1⟩ a fs t sub hres hdel
        refine ⟨{ root with _files := mapAssign root._files h r1.toNode }, ?_, ?_, ?_⟩
        · rw [e, deleteFile_step root h _ hh, hf]
          dsimp only
          rw [hr1]
        · rw [resolve_step _ h t1 hh]
          simp only [mapFind_mapAssign_self, Directory.toNode]
          exact hres1
        · intro e1
          rw [hsame e1, Directory.toNode, mapAssign_of_mapFind _ _ _ hf]

theorem addFile_under : ∀ (dpath : Str) (root : Directory) (a : FileAttribute)
    (fs : FileMap) (t b : Str) (s c : Nat) (sub : Directory) (c1 : Nat),
    root.resolve dpath = some (.directory a fs) →
    Directory.addFile ⟨a, fs⟩ t b s c = .ok (sub, c1) →
    ∃ root1, root.addFile (dpath ++ '\\' :: t) b s c = .ok (root1, c1) ∧
      root1.resolve dpath = some sub.toNode := by
  intro dpath
  induction dpath using path_induction with
  | leaf p hp =>
    intro root a fs t b s c sub c1 hres hadd
    rw [resolve_leaf root p hp] at hres
    refine ⟨{ root with _files := mapAssign root._files p sub.toNode }, ?_, ?_⟩
    · rw [addFile_step root p t b s c hp, hres]
      dsimp only
      rw [hadd]
    · rw [resolve_leaf _ p hp]
      exact mapFind_mapAssign_self _ _ _
  | step h t1 hh ih =>
    intro root a fs t b s c sub c1 hres hadd
    rw [resolve_step root h t1 hh] at hres
    have e : (h ++ '\\' :: t1) ++ '\\' :: t = h ++ '\\' :: (t1 ++ '\\' :: t) := by simp
    cases hf : mapFind root._files h with
    | none => rw [hf] at hres; cases hres
    | some v =>
      cases v with
      | file f => rw [hf] at hres; cases hres
      | directory a1 sub1 =>
        simp only [hf] at hres
        obtain ⟨r1, hr1, hres1⟩ := ih ⟨a1, sub1⟩ a fs t b s c sub c1 hres hadd
        refine ⟨{ root with _files := mapAssign root._files h r1.toNode }, ?_, ?_⟩
        · rw [e, addFile_step root h _ b s c hh, hf]
          dsimp only
          rw [hr1]
        · rw [resolve_step _ h t1 hh]
          simp only [mapFind_mapAssign_self, Directory.toNode]
          exact hres1

theorem resolve_under : ∀ (dpath : Str) (root : Directory) (a : FileAttribute)
    (fs : FileMap) (t : Str), root.resolve dpath = some (.directory a fs) →
    root.resolve (dpath ++ '\\' :: t) = Directory.resolve ⟨a, fs⟩ t := by
  intro dpath
  induction dpath using path_induction with
  | leaf p hp =>
    intro root a fs t hres
    rw [resolve_leaf root p hp] at hres
    rw [resolve_step root p t hp, hres]
  | step h t1 hh ih =>
    intro root a fs t hres
    rw [resolve_step root h t1 hh] at hres
    have e : (h ++ '\\' :: t1) ++ '\\' :: t = h ++ '\\' :: (t1 ++ '\\' :: t) := by simp
    rw [e, resolve_step root h _ hh]
    cases hf : mapFind root._files h with
    | none => rw [hf] at hres; cases hres
    | some v =>
      cases v with
      | file f => rw [hf] at hres; cases hres
      | directory a1 sub1 =>
        simp only [hf] at hres
        exact ih ⟨a1, sub1⟩ a fs t hres

theorem not_mem_sep_nil : '\\' ∉ ([] : Str) := by simp

/-! ## Line breaks of the listing, and the root of the facade -/

theorem digitChar_ne_newline : ∀ d, d < 10 → Nat.digitChar d ≠ '\n' := by
  decide

theorem toDigitsCore_count_newline : ∀ (fuel n : Nat) (ds : List Char),
    (Nat.toDigitsCore 10 fuel n ds).count '\n' = ds.count '\n' := by
  intro fuel
  induction fuel with
  | zero => intro n ds; rfl
  | succ fuel ih =>
    intro n ds
    have hd : List.count '\n' (Nat.digitChar (n % 10) :: ds) = List.count '\n' ds :=
      List.count_cons_of_ne
        (fun e => digitChar_ne_newline _ (Nat.mod_lt _ (by decide)) e.symm) ds
    rw [Nat.toDigitsCore]
    split
    · exact hd
    · rw [ih, hd]

theorem toDigits_count_newline (n : Nat) : (Nat.toDigits 10 n).count '\n' = 0 := by
  rw [Nat.toDigits, toDigitsCore_count_newline]
  rfl

theorem replicate_space_count_newline (k : Nat) :
    (List.replicate k ' ').count '\n' = 0 := by
  rw [List.count_eq_zero]
  intro h
  have := List.eq_of_mem_replicate h
  exact absurd this (by decide)

mutual
theorem listFiles_count_newline : ∀ (node : FileNode) (indent : Nat),
    (node.listFiles indent).count '\n' = node.countNodes + node.nameBreaks
  | .file f, indent => by
    rw [FileNode.listFiles, FileNode.countNodes, FileNode.nameBreaks]
    simp only [List.count_append, replicate_space_count_newline, toDigits_count_newline]
    have h1 : List.count '\n' "- ".toList = 0 := by decide
    have h2 : List.count '\n' " (".toList = 0 := by decide
    have h3 : List.count '\n' " bytes)".toList = 0 := by decide
    have h4 : List.count '\n' "\n".toList = 1 := by decide
    rw [h1, h2, h3, h4]
    omega
  | .directory a fs, indent => by
    rw [FileNode.listFiles, FileNode.countNodes, FileNode.nameBreaks]
    simp only [List.count_append, replicate_space_count_newline,
      listFilesLoop_count_newline fs (indent + 2)]
    have h1 : List.count '\n' "+ ".toList = 0 := by decide
    have h4 : List.count '\n' "/\n".toList = 1 := by decide
    rw [h1, h4]
    omega
theorem listFilesLoop_count_newline : ∀ (fs : FileMap) (indent : Nat),
    (listFilesLoop fs indent).count '\n' = countNodesMap fs + nameBreaksMap fs
  | [], _ => rfl
  | (_, node) :: rest, indent => by
    rw [listFilesLoop, List.count_append, listFiles_count_newline node indent,
      listFilesLoop_count_newline rest indent, countNodesMap, nameBreaksMap]
    omega
end

theorem call_root_attribute (st st1 : FileSystem × Nat) (c : Call)
    (hcall : FileSystem.call st c = .ok st1) :
    st1.1._root._file_attribute = st.1._root._file_attribute := by
  cases c with
  | addFile p b s =>
    simp only [FileSystem.call, FileSystem.addFile] at hcall
    cases hr : st.1._root.addFile p b s st.2 with
    | error e => rw [hr] at hcall; cases hcall
    | ok r =>
      obtain ⟨d1, c1⟩ := r
      rw [hr] at hcall
      simp only [Except.ok.injEq] at hcall
      rw [← hcall]
      exact (addFile_effect p _ b s _ d1 c1 hr).1
  | DeleteFile p =>
    simp only [FileSystem.call, FileSystem.DeleteFile] at hcall
    cases hr : st.1._root.deleteFile p with
    | error e => rw [hr] at hcall; cases hcall
    | ok d1 =>
      rw [hr] at hcall
      simp only [Except.ok.injEq] at hcall
      rw [← hcall]
      exact (deleteFile_keeps p _ d1 hr).1

theorem run_root_attribute (calls : List Call) : ∀ (st st1 : FileSystem × Nat),
    FileSystem.run st calls = .ok st1 →
    st1.1._root._file_attribute = st.1._root._file_attribute := by
  induction calls with
  | nil =>
    intro st st1 hrun
    simp only [FileSystem.run, Except.ok.injEq] at hrun
    rw [hrun]
  | cons c rest ih =>
    intro st st1 hrun
    rw [FileSystem.run] at hrun
    cases hc : FileSystem.call st c with
    | error e => rw [hc] at hrun; cases hrun
    | ok st2 =>
      rw [hc] at hrun
      rw [ih st2 st1 hrun, call_root_attribute st st2 c hc]

theorem listAllFiles_head (fs : FileSystem) :
    ("+ ".toList ++ fs._root._file_attribute._file_name ++ "/\n".toList) <+: fs.listAllFiles := by
  rw [FileSystem.listAllFiles, Directory.toNode, FileNode.listFiles]
  simp

/-- C9: on every tree whose nodes are all directories (the only trees a filesystem can hold,
since `addFile` never makes a file), for every path `p`, buffer and size, `addFile(p, b, s)`
followed by `DeleteFile(p)` both return normally and `getTotalSize()` afterwards is what it
was before the two calls, whether or not `p` resolved beforehand. -/
theorem add_then_delete_restores_total (fs : FileSystem) (p b : Str) (s c : Nat)
    (hall : fs._root.toNode.allNodes isDirectoryNode = true) :
    ∃ fs1 c1 fs2, fs.addFile p b s c = .ok (fs1, c1) ∧ fs1.DeleteFile p = .ok fs2 ∧
      fs2.getTotalSize = fs.getTotalSize := by
  obtain ⟨⟨d1, c1⟩, hadd⟩ := addFile_ok p fs._root b s c (throughDirs_of_allDirs _ p hall)
  have hall1 := addFile_allNodes _ localInv_isDirectoryNode p fs._root b s c d1 c1 hall hadd
  obtain ⟨d2, hdel⟩ := deleteFile_ok p d1 (throughDirs_of_allDirs _ p hall1)
  have hall2 := deleteFile_allNodes _ localInv_isDirectoryNode p d1 d2 hall1 hdel
  refine ⟨⟨d1⟩, c1, ⟨d2⟩, by simp only [FileSystem.addFile, hadd],
    by simp only [FileSystem.DeleteFile, hdel], ?_⟩
  rw [FileSystem.getTotalSize, FileSystem.getTotalSize, getSize_of_allDirs d2 hall2,
    getSize_of_allDirs fs._root hall]

/-- Witness for C9: on a tree of directories, adding and deleting the path `dir3\sub1`,
which resolves beforehand. -/
theorem add_then_delete_restores_total_witness :
    sampleDirRoot.toNode.allNodes isDirectoryNode = true ∧
    (sampleDirRoot.resolve "dir3\\sub1".toList).isSome = true ∧
    ∃ fs1 c1 fs2,
      FileSystem.addFile ⟨sampleDirRoot⟩ "dir3\\sub1".toList "data".toList 4 7
        = .ok (fs1, c1) ∧
      fs1.DeleteFile "dir3\\sub1".toList = .ok fs2 ∧
      fs2.getTotalSize = FileSystem.getTotalSize ⟨sampleDirRoot⟩ :=
  ⟨by decide, by decide,
    add_then_delete_restores_total ⟨sampleDirRoot⟩ "dir3\\sub1".toList "data".toList 4 7
      (by decide)⟩

/-- C11: a freshly constructed `File` has size `0` and empty contents; `File::fill(buffer,
size)` on a buffer of at least `size` bytes stores the first `size` bytes and the size
`size`, so that `_size` is the length of `_file_contents` (a shorter buffer is read past its
end, which is the only fault of `fill`); a fresh filesystem satisfies the invariant, and
when every file of a tree has its `_size` equal to the length of its `_file_contents`, the
same holds after any sequence of `addFile` and `DeleteFile` calls. -/
theorem file_size_invariant (st st1 : FileSystem × Nat) (calls : List Call)
    (hinv : st.1._root.toNode.allNodes sizeMatches = true)
    (hrun : FileSystem.run st calls = .ok st1) :
    File.new._size = 0 ∧ File.new._file_contents = [] ∧
    (∀ (f : File) (buffer : Str) (size : Nat),
      if size ≤ buffer.length then
        ∃ f1, f.fill buffer size = .ok f1 ∧ f1._file_contents = buffer.take size ∧
          f1._size = size ∧ f1._size = f1._file_contents.length
      else f.fill buffer size = .error .bufferOverrun) ∧
    (∀ clock0, (FileSystem.new clock0).1._root.toNode.allNodes sizeMatches = true) ∧
    st1.1._root.toNode.allNodes sizeMatches = true := by
  refine ⟨rfl, rfl, ?_, fun _ => rfl,
    run_allNodes _ localInv_sizeMatches calls st st1 hinv hrun⟩
  intro f buffer size
  by_cases h : size ≤ buffer.length
  · rw [if_pos h]
    refine ⟨_, by rw [File.fill, if_pos h], rfl, rfl, ?_⟩
    simp only [List.length_take]
    omega
  · rw [if_neg h, File.fill, if_neg h]

/-- Witness for C11: the sample tree, whose three files satisfy the invariant, and two
calls. -/
theorem file_size_invariant_witness :
    sampleRoot.toNode.allNodes sizeMatches = true ∧
    FileSystem.run (⟨sampleRoot⟩, 7) sampleCalls = .ok sampleAfter ∧
    sampleAfter.1._root.toNode.allNodes sizeMatches = true :=
  ⟨by decide, rfl,
    (file_size_invariant (⟨sampleRoot⟩, 7) sampleAfter sampleCalls (by decide) rfl).2.2.2.2⟩

/-- C12 (counterexample to the claim as stated): after `addFile("a\nb", "", 0)` on a fresh
filesystem the tree has two nodes, the root and a directory whose name holds a line break,
and the text of `listAllFiles()` is `+ ./`, `  + a`, `b/`: three lines for two nodes. -/
theorem listAllFiles_name_with_line_break :
    ((FileSystem.new 0).1.addFile "a\nb".toList [] 0 1).map
      (fun r => (r.1._root.toNode.countNodes, r.1.listAllFiles.count '\n', r.1.listAllFiles))
      = .ok (2, 3, "+ ./\n  + a\nb/\n".toList) := by
  decide

/-- C12 (as amended): for every tree, the text of `listAllFiles()` is the depth-first sequence
of entries of the specification (each node's entry, then its children's subtrees one level
deeper, child after child), every entry followed by a line break; it starts with `+ `, the
name of the root and `/`; the number of line breaks of the text is the number of nodes plus
the number of line breaks inside node names, so that the text has exactly one line per node
when no name holds a line break; a node reached by a path of `k` segments is printed with
`2k` leading spaces, as `+ <name>/` if it is a directory and as `- <name> (<size> bytes)` if
it is a file.  And every sequence of calls on a fresh filesystem returns normally in a state
whose root is named `.` and whose listing starts with the line `+ ./`. -/
theorem listAllFiles_shape (fs : FileSystem) (clock0 : Nat) (calls : List Call) :
    fs.listAllFiles = unlines (specLines 0 fs._root.toNode) ∧
    ("+ ".toList ++ fs._root._file_attribute._file_name ++ "/\n".toList)
      <+: fs.listAllFiles ∧
    fs.listAllFiles.count '\n' = fs._root.toNode.countNodes + fs._root.toNode.nameBreaks ∧
    (fs._root.toNode.nameBreaks = 0 →
      fs.listAllFiles.count '\n' = fs._root.toNode.countNodes) ∧
    (specLines 0 fs._root.toNode).length = fs._root.toNode.countNodes ∧
    (∀ q node, fs._root.resolve q = some node →
      specLine (segments q).length node ∈ specLines 0 fs._root.toNode) ∧
    ∃ st, FileSystem.run (FileSystem.new clock0) calls = .ok st ∧
      st.1._root._file_attribute._file_name = ['.'] ∧
      "+ ./\n".toList <+: st.1.listAllFiles := by
  have hcount := listFiles_count_newline fs._root.toNode 0
  refine ⟨listFiles_eq_specLines fs._root.toNode 0, listAllFiles_head fs, hcount,
    fun h0 => ?_, specLines_length _ _, ?_, ?_⟩
  · rw [FileSystem.listAllFiles, hcount, h0, Nat.add_zero]
  · intro q node hq
    rw [Directory.toNode, specLines]
    apply List.mem_cons_of_mem
    have := specLine_mem_of_resolveSegs (segments q) 0 fs._root._files node hq
    simpa using this
  · obtain ⟨st, hrun, _⟩ := run_ok_of_allDirs calls (FileSystem.new clock0)
      (fresh_allDirs clock0)
    have hname : st.1._root._file_attribute._file_name = ['.'] := by
      rw [run_root_attribute calls _ st hrun]
      rfl
    refine ⟨st, hrun, hname, ?_⟩
    have := listAllFiles_head st.1
    rw [hname] at this
    exact this

/-- C13: `FileNode::initialize(name)` sets the name and stamps both time points with the one
clock reading; `addFile` leaves the root and every node that resolved before with the
attributes it had, and so does `deleteFile` for every node outside the deleted subtree; a
fresh filesystem has equal time points at its root, and when all nodes of a tree have equal
time points, then after any sequence of `addFile` and `DeleteFile` calls all nodes have
equal time points, hence `creation_time ≤ last_modified_time`. -/
theorem timestamps_invariant (st st1 : FileSystem × Nat) (calls : List Call)
    (hinv : st.1._root.toNode.allNodes stampsEqual = true)
    (hrun : FileSystem.run st calls = .ok st1) :
    (∀ (f : File) (name : Str) (now : Nat),
      ( File.initialize f name now)._file_attribute = ⟨name, now, now⟩) ∧
    (∀ (d : Directory) (name : Str) (now : Nat),
      ( Directory.initialize d name now)._file_attribute = ⟨name, now, now⟩) ∧
    (∀ (d : Directory) (p b : Str) (s c : Nat) (d1 : Directory) (c1 : Nat),
      d.addFile p b s c = .ok (d1, c1) →
      d1._file_attribute = d._file_attribute ∧
      ∀ q node, d.resolve q = some node →
        ∃ node1, d1.resolve q = some node1 ∧ node1.attribute = node.attribute) ∧
    (∀ (d : Directory) (p : Str) (d1 : Directory), d.deleteFile p = .ok d1 →
      d1._file_attribute = d._file_attribute ∧
      ∀ q node, d.resolve q = some node → ¬ segments p <+: segments q →
        ∃ node1, d1.resolve q = some node1 ∧ node1.attribute = node.attribute) ∧
    (∀ clock0, (FileSystem.new clock0).1._root.toNode.allNodes stampsEqual = true) ∧
    st1.1._root.toNode.allNodes stampsEqual = true ∧
    st1.1._root.toNode.allNodes stampsOrdered = true := by
  have hfinal := run_allNodes _ localInv_stampsEqual calls st st1 hinv hrun
  refine ⟨fun _ _ _ => rfl, fun _ _ _ => rfl, ?_, ?_, fresh_stampsEqual, hfinal,
    allNodes_mono _ _ stampsOrdered_of_stampsEqual _ hfinal⟩
  · intro d p b s c d1 c1 hadd
    obtain ⟨hattr, hgrow⟩ := addFile_effect p d b s c d1 c1 hadd
    refine ⟨hattr, fun q node hq => ?_⟩
    obtain ⟨node1, h1, h2, _⟩ := hgrow.2 (segments q) node hq
    exact ⟨node1, h1, h2⟩
  · intro d p d1 hdel
    obtain ⟨hattr, hkeep⟩ := deleteFile_keeps p d d1 hdel
    refine ⟨hattr, fun q node hq hpre => ?_⟩
    obtain ⟨node1, h1, h2, _⟩ := hkeep (segments q) node hq hpre
    exact ⟨node1, h1, h2⟩

/-- Witness for C13: the sample tree, whose nodes all have equal time points, and two
calls. -/
theorem timestamps_invariant_witness :
    sampleRoot.toNode.allNodes stampsEqual = true ∧
    FileSystem.run (⟨sampleRoot⟩, 7) sampleCalls = .ok sampleAfter ∧
    sampleAfter.1._root.toNode.allNodes stampsEqual = true ∧
    sampleAfter.1._root.toNode.allNodes stampsOrdered = true :=
  ⟨by decide, rfl,
    (timestamps_invariant (⟨sampleRoot⟩, 7) sampleAfter sampleCalls (by decide)
      rfl).2.2.2.2.2⟩

/-- C14: `Directory::get(path)` returns the least index holding the separator, or
`path.size()` when the path holds none; the head `path[0 .. i)` is separator-free; when a
separator exists the path is head, separator, tail with `tail = path[i+1 ..]`; when none
exists the head is the whole path. -/
theorem get_split (path : Str) :
    get path ≤ path.length ∧
    (∀ j, j < get path → path[j]? ≠ some '\\') ∧
    (get path < path.length → path[get path]? = some '\\') ∧
    (get path < path.length ↔ '\\' ∈ path) ∧
    '\\' ∉ path.take (get path) ∧
    ('\\' ∈ path →
      path = path.take (get path) ++ '\\' :: path.drop (get path + 1)) ∧
    ('\\' ∉ path → get path = path.length ∧ path.take (get path) = path) := by
  refine ⟨get_le path, get_before_ne_sep path, ?_, get_lt_iff_mem path, ?_, ?_, ?_⟩
  · intro hlt
    rcases path_split path with hp | ⟨h, t, hh, rfl⟩
    · exact absurd ((get_lt_iff_mem path).mp hlt) hp
    · exact (path_facts h t hh).2.1
  · rcases path_split path with hp | ⟨h, t, hh, rfl⟩
    · rw [get_of_not_mem path hp, List.take_length]; exact hp
    · rw [(path_facts h t hh).2.2.1]; exact hh
  · intro hmem
    rcases path_split path with hp | ⟨h, t, hh, rfl⟩
    · exact absurd hmem hp
    · obtain ⟨_, _, h3, h4⟩ := path_facts h t hh
      rw [h3, h4]
  · intro hp
    rw [get_of_not_mem path hp, List.take_length]
    exact ⟨rfl, rfl⟩

/-- C15: in a tree without duplicate keys whose existing intermediate segments of `p` are
directories,
`addFile(p, b, s)` followed by `deleteFile(p)` both return normally; afterwards every path
whose segments are a proper prefix of those of `p` resolves to a directory, and `p` itself
no longer resolves. -/
theorem deleteFile_keeps_ancestors (d : Directory) (p b : Str) (s c : Nat)
    (hu : d.toNode.uniqueKeys = true) (ht : d.throughDirs p = true) :
    ∃ d1 c1 d2, d.addFile p b s c = .ok (d1, c1) ∧ d1.deleteFile p = .ok d2 ∧
      (∀ q, segments q <+: segments p → segments q ≠ segments p →
        ∃ a fs, d2.resolve q = some (.directory a fs)) ∧
      d2.resolve p = none := by
  obtain ⟨⟨d1, c1⟩, hadd⟩ := addFile_ok p d b s c ht
  obtain ⟨_, hgrow⟩ := addFile_effect p d b s c d1 c1 hadd
  have hu1 : d1.toNode.uniqueKeys = true := by
    rw [uniqueKeys_eq_allNodes] at hu ⊢
    exact addFile_allNodes _ localInv_keysDistinct p d b s c d1 c1 hu hadd
  have hp1 : (resolveSegs d1._files (segments p)).isSome = true :=
    (hgrow.1 _ (segments_ne_nil p)).mpr (Or.inr (List.prefix_refl _))
  obtain ⟨node, hnode⟩ := Option.isSome_iff_exists.mp hp1
  obtain ⟨d2, hdel, _, _, _, hgone⟩ := deleteFile_resolved p d1 node hnode
  obtain ⟨_, hkeep⟩ := deleteFile_keeps p d1 d2 hdel
  refine ⟨d1, c1, d2, hadd, hdel, fun q hq hne => ?_, hgone hu1 _ (List.prefix_refl _)⟩
  obtain ⟨more, hmore⟩ := hq
  have hmore_ne : more ≠ [] := by
    intro e; subst e
    rw [List.append_nil] at hmore
    exact hne hmore
  obtain ⟨a, sub, hdir⟩ := resolveSegs_prefix_directory (segments q) more d1._files node
    (segments_ne_nil q) hmore_ne (by rw [hmore]; exact hnode)
  have hnot : ¬ segments p <+: segments q := by
    intro hpq
    have hle := hpq.length_le
    rw [← hmore, List.length_append] at hle
    have : more.length = 0 := by omega
    exact hmore_ne (List.length_eq_zero.mp this)
  obtain ⟨node1, h1, _, h3⟩ := hkeep (segments q) _ hdir hnot
  cases node1 with
  | file f => simp [FileNode.isFile] at h3
  | directory a1 sub1 => exact ⟨a1, sub1, h1⟩

/-- Witness for C15: on the sample tree, adding and deleting `dir3\new\f.txt`. -/
theorem deleteFile_keeps_ancestors_witness :
    sampleRoot.toNode.uniqueKeys = true ∧
    sampleRoot.throughDirs "dir3\\new\\f.txt".toList = true ∧
    ∃ d1 c1 d2, sampleRoot.addFile "dir3\\new\\f.txt".toList "data".toList 4 7 = .ok (d1, c1) ∧
      d1.deleteFile "dir3\\new\\f.txt".toList = .ok d2 ∧
      (∀ q, segments q <+: segments "dir3\\new\\f.txt".toList →
        segments q ≠ segments "dir3\\new\\f.txt".toList →
        ∃ a fs, d2.resolve q = some (.directory a fs)) ∧
      d2.resolve "dir3\\new\\f.txt".toList = none :=
  ⟨by decide, by decide,
    deleteFile_keeps_ancestors sampleRoot "dir3\\new\\f.txt".toList "data".toList 4 7
      (by decide) (by decide)⟩

/-- C16: when the path `dpath` resolves to a directory with children `fs`, then
`deleteFile(dpath ++ "\")` returns normally and leaves `dpath` resolving to the same
directory with only its child named `""` erased (the whole tree is unchanged when there is
none); `addFile(dpath ++ "\", b, s)` returns normally and afterwards that directory has a
child under the name `""`, which is the child it had or else a new node named `""`; and
`addFile("", b, s)` does the same directly under the root. -/
theorem empty_segment_names_child (root : Directory) (dpath b : Str) (s c : Nat)
    (a : FileAttribute) (fs : FileMap)
    (hd : root.resolve dpath = some (.directory a fs)) :
    (∃ root1, root.deleteFile (dpath ++ ['\\']) = .ok root1 ∧
      root1.resolve dpath = some (.directory a (mapErase fs [])) ∧
      (mapFind fs [] = none → root1 = root)) ∧
    (∃ root1 c1 fs1 child, root.addFile (dpath ++ ['\\']) b s c = .ok (root1, c1) ∧
      root1.resolve dpath = some (.directory a fs1) ∧ mapFind fs1 [] = some child ∧
      root1.resolve (dpath ++ ['\\']) = some child ∧
      (∀ old, mapFind fs [] = some old → child = old ∧ fs1 = fs) ∧
      (mapFind fs [] = none →
        child = Directory.toNode ( Directory.initialize Directory.new [] c) ∧
        child.attribute._file_name = [])) ∧
    (∃ root1 c1 child, root.addFile [] b s c = .ok (root1, c1) ∧
      mapFind root1._files [] = some child ∧ root1.resolve [] = some child ∧
      (∀ old, mapFind root._files [] = some old → child = old) ∧
      (mapFind root._files [] = none →
        child = Directory.toNode ( Directory.initialize Directory.new [] c) ∧
        child.attribute._file_name = [])) := by
  refine ⟨?_, ?_, ?_⟩
  · obtain ⟨root1, h1, h2, h3⟩ := deleteFile_under dpath root a fs [] _ hd
      (deleteFile_leaf ⟨a, fs⟩ [] not_mem_sep_nil)
    refine ⟨root1, h1, h2, fun hnone => h3 ?_⟩
    rw [mapErase_of_mapFind_none _ _ hnone]
  · cases hf : mapFind fs [] with
    | none =>
      have hadd : Directory.addFile ⟨a, fs⟩ [] b s c =
          .ok (⟨a, mapAssign fs [] (Directory.toNode ( Directory.initialize Directory.new
            [] c))⟩, c + 1) := by
        rw [addFile_leaf _ [] b s c not_mem_sep_nil]
        simp only [hf, Option.isNone_none, if_true]
      obtain ⟨root1, h1, h2⟩ := addFile_under dpath root a fs [] b s c _ _ hd hadd
      refine ⟨root1, c + 1, _, _, h1, h2, mapFind_mapAssign_self _ _ _, ?_,
        fun old ho => (by cases ho), fun _ => ⟨rfl, rfl⟩⟩
      rw [resolve_under dpath root1 _ _ [] h2, resolve_leaf _ [] not_mem_sep_nil]
      exact mapFind_mapAssign_self _ _ _
    | some old =>
      have hadd : Directory.addFile ⟨a, fs⟩ [] b s c = .ok (⟨a, fs⟩, c) := by
        rw [addFile_leaf _ [] b s c not_mem_sep_nil]
        simp only [hf, Option.isNone_some, Bool.false_eq_true, if_false]
      obtain ⟨root1, h1, h2⟩ := addFile_under dpath root a fs [] b s c _ _ hd hadd
      refine ⟨root1, c, fs, old, h1, h2, hf, ?_,
        fun old1 ho => ⟨(by cases ho; rfl), rfl⟩, fun hn => (by cases hn)⟩
      rw [resolve_under dpath root1 _ _ [] h2, resolve_leaf _ [] not_mem_sep_nil]
      exact hf
  · cases hf : mapFind root._files [] with
    | none =>
      refine ⟨_, _, _, (by rw [addFile_leaf root [] b s c not_mem_sep_nil, hf]),
        mapFind_mapAssign_self _ _ _, ?_, fun old ho => (by cases ho), fun _ => ⟨rfl, rfl⟩⟩
      rw [resolve_leaf _ [] not_mem_sep_nil]
      exact mapFind_mapAssign_self _ _ _
    | some old =>
      refine ⟨root, c, old, (by rw [addFile_leaf root [] b s c not_mem_sep_nil, hf]; rfl),
        hf, ?_, fun old1 ho => (by cases ho; rfl), fun hn => (by cases hn)⟩
      rw [resolve_leaf _ [] not_mem_sep_nil]
      exact hf

/-- Witness for C16: on the sample tree, with `dpath = dir3\sub1`. -/
theorem empty_segment_names_child_witness :
    sampleDirRoot.resolve "dir3\\sub1".toList = some (.directory ⟨"sub1".toList, 2, 2⟩ []) ∧
    (∃ root1, sampleDirRoot.deleteFile ("dir3\\sub1".toList ++ ['\\']) = .ok root1 ∧
      root1.resolve "dir3\\sub1".toList =
        some (.directory ⟨"sub1".toList, 2, 2⟩ (mapErase [] [])) ∧
      (mapFind [] [] = none → root1 = sampleDirRoot)) ∧
    (∃ root1 c1 fs1 child,
      sampleDirRoot.addFile ("dir3\\sub1".toList ++ ['\\']) "data".toList 4 7
        = .ok (root1, c1) ∧
      root1.resolve "dir3\\sub1".toList = some (.directory ⟨"sub1".toList, 2, 2⟩ fs1) ∧
      mapFind fs1 [] = some child ∧
      root1.resolve ("dir3\\sub1".toList ++ ['\\']) = some child) :=
  have h := empty_segment_names_child sampleDirRoot "dir3\\sub1".toList "data".toList 4 7
    ⟨"sub1".toList, 2, 2⟩ [] rfl
  ⟨rfl, h.1, by
    obtain ⟨root1, c1, fs1, child, h1, h2, h3, h4, _⟩ := h.2.1
    exact ⟨root1, c1, fs1, child, h1, h2, h3, h4⟩⟩

/-- C17: the condition of line 81 holds for every path (`get` returns the size of the path
or the index of a separator), so `addFile` never takes the terminal-file branch; every
sequence of `addFile` and `DeleteFile` calls on a fresh filesystem returns normally, and in
the state it reaches every node is a directory and `getTotalSize()` is `0`. -/
theorem addFile_never_produces_file (clock0 : Nat) (calls : List Call) :
    (∀ path : Str, get path = path.length ∨ path[get path]? = some '\\') ∧
    ∃ st, FileSystem.run (FileSystem.new clock0) calls = .ok st ∧
      st.1._root.toNode.allNodes isDirectoryNode = true ∧ st.1.getTotalSize = 0 := by
  obtain ⟨st, hrun, hall⟩ := run_ok_of_allDirs calls (FileSystem.new clock0)
    (fresh_allDirs clock0)
  exact ⟨get_branch, st, hrun, hall, getSize_of_allDirs _ hall⟩

/-- C18: in a tree whose nodes are all directories `addFile(p, b, s)` returns normally; a
path resolves afterwards exactly when it resolved before or its segments are a prefix of
those of `p`; the root and every node that resolved before keep their attributes (name and
time points), and so, being reached by longer paths, do their children; when `p` already
resolves the tree and the clock are unchanged; and a second `addFile(p, ..)` changes
nothing. -/
theorem addFile_namespace_effect (d : Directory) (p b : Str) (s c : Nat)
    (hall : d.toNode.allNodes isDirectoryNode = true) :
    ∃ d1 c1, d.addFile p b s c = .ok (d1, c1) ∧
      d1._file_attribute = d._file_attribute ∧
      (∀ q, (d1.resolve q).isSome = true ↔
        (d.resolve q).isSome = true ∨ segments q <+: segments p) ∧
      (∀ q node, d.resolve q = some node →
        ∃ node1, d1.resolve q = some node1 ∧ node1.attribute = node.attribute ∧
          node1.isFile = node.isFile) ∧
      ((d.resolve p).isSome = true → d1 = d ∧ c1 = c) ∧
      (∀ (b2 : Str) (s2 : Nat), d1.addFile p b2 s2 c1 = .ok (d1, c1)) := by
  obtain ⟨⟨d1, c1⟩, hadd⟩ := addFile_ok p d b s c (throughDirs_of_allDirs d p hall)
  obtain ⟨hattr, hgrow⟩ := addFile_effect p d b s c d1 c1 hadd
  have hp1 : (d1.resolve p).isSome = true :=
    (hgrow.1 _ (segments_ne_nil p)).mpr (Or.inr (List.prefix_refl _))
  refine ⟨d1, c1, hadd, hattr, fun q => hgrow.1 _ (segments_ne_nil q),
    fun q node hq => hgrow.2 _ node hq, fun hres => ?_,
    fun b2 s2 => addFile_resolved p d1 b2 s2 c1 hp1⟩
  have := addFile_resolved p d b s c hres
  rw [hadd] at this
  simp only [Except.ok.injEq, Prod.mk.injEq] at this
  exact this

/-- Witness for C18: on a tree of directories, adding `dir3\new\f.txt`. -/
theorem addFile_namespace_effect_witness :
    sampleDirRoot.toNode.allNodes isDirectoryNode = true ∧
    ∃ d1 c1, sampleDirRoot.addFile "dir3\\new\\f.txt".toList "data".toList 4 7
        = .ok (d1, c1) ∧
      d1._file_attribute = sampleDirRoot._file_attribute ∧
      (∀ q, (d1.resolve q).isSome = true ↔
        (sampleDirRoot.resolve q).isSome = true ∨
          segments q <+: segments "dir3\\new\\f.txt".toList) ∧
      (∀ q node, sampleDirRoot.resolve q = some node →
        ∃ node1, d1.resolve q = some node1 ∧ node1.attribute = node.attribute ∧
          node1.isFile = node.isFile) ∧
      ((sampleDirRoot.resolve "dir3\\new\\f.txt".toList).isSome = true →
        d1 = sampleDirRoot ∧ c1 = 7) ∧
      (∀ (b2 : Str) (s2 : Nat),
        d1.addFile "dir3\\new\\f.txt".toList b2 s2 c1 = .ok (d1, c1)) :=
  ⟨by decide,
    addFile_namespace_effect sampleDirRoot "dir3\\new\\f.txt".toList "data".toList 4 7
      (by decide)⟩

/-- C19: every sequence of `addFile` and `DeleteFile` calls on a fresh filesystem returns
normally (no cast of the descent meets a file), and in the state it reaches every existing
intermediate segment of every path is a directory, so that any further `addFile` or
`deleteFile` returns normally as well. -/
theorem downcasts_safe_on_reachable (clock0 : Nat) (calls : List Call) :
    ∃ st, FileSystem.run (FileSystem.new clock0) calls = .ok st ∧
      (∀ p : Str, st.1._root.throughDirs p = true) ∧
      (∀ (p b : Str) (s c : Nat), ∃ r, st.1._root.addFile p b s c = .ok r) ∧
      (∀ p : Str, ∃ r, st.1._root.deleteFile p = .ok r) := by
  obtain ⟨st, hrun, hall⟩ := run_ok_of_allDirs calls (FileSystem.new clock0)
    (fresh_allDirs clock0)
  exact ⟨st, hrun, fun p => throughDirs_of_allDirs _ p hall,
    fun p b s c => addFile_ok p _ b s c (throughDirs_of_allDirs _ p hall),
    fun p => deleteFile_ok p _ (throughDirs_of_allDirs _ p hall)⟩

/-- C20: the recursions of `Directory::addFile` and `Directory::deleteFile` terminate with a
depth of at most the number of separators plus one: any fuel of at least that many levels
gives the result of the call, which is never the out-of-fuel outcome; and the tail
`path.substr(idx+1)` a recursive call is made on is strictly shorter than the path and holds
one separator less. -/
theorem path_descent_terminates (d : Directory) (file_path buffer : Str)
    (file_size clock extra : Nat) :
    Directory.addFileFuel (file_path.count '\\' + 1 + extra) d file_path buffer file_size clock
      = d.addFile file_path buffer file_size clock ∧
    d.addFile file_path buffer file_size clock ≠ .error .outOfFuel ∧
    Directory.deleteFileFuel (file_path.count '\\' + 1 + extra) d file_path
      = d.deleteFile file_path ∧
    d.deleteFile file_path ≠ .error .outOfFuel ∧
    (get file_path < file_path.length →
      (file_path.drop (get file_path + 1)).length < file_path.length ∧
      (file_path.drop (get file_path + 1)).count '\\' + 1 = file_path.count '\\') := by
  have hc : file_path.count '\\' ≤ file_path.length := List.count_le_length _ _
  refine ⟨?_, addFile_ne_outOfFuel _ _ _ _ _, ?_, deleteFile_ne_outOfFuel _ _,
    tail_shorter file_path⟩
  · exact addFileFuel_fuel_count _ _ d file_path buffer file_size clock (by omega) (by omega)
  · exact deleteFileFuel_fuel_count _ _ d file_path (by omega) (by omega)

end Filesystem
